import Mathlib

/-!
A shallow embedding of the transport-puzzle compiler, solver and verifier of
the LLMReasoningBenchmark repository (`starship-transport-generator.js`,
embedded in `src/README.md`).

JavaScript strings are modelled as `List Char` (`JStr`).  The generated
Prolog program is modelled by its semantics: the `move/1` facts become the
list `moveFacts`, the `safe/1` predicate becomes the boolean `safe`, the
clauses `apply_move_subtract` / `apply_move_add` become `Option`-valued
functions, `transition_with_move/3` and `path/3` become inductive
predicates, and `check_solution/2` (always queried with ground steps)
becomes the boolean function `check_solution`.  The JavaScript codec
(`parseSolutionLines`, `moveToSentence`, `checkUserSolution`) is translated
function by function; `Math.random` is modelled as an explicit stream of
naturals and the unbounded sampling loop of `generateRandomConfig` gets an
explicit fuel argument.
-/

/-- JavaScript strings, modelled as lists of characters. -/
abbrev JStr := List Char

/-- The two bank sides appearing in the generated program
(`state(Counts, start)` / `state(Counts, target)`). -/
inductive Side where
  | start
  | target
deriving DecidableEq, Repr

/-- A Prolog state term `state(Counts, Side)`.  Counts are Prolog integers. -/
structure PState where
  counts : List Int
  side : Side
deriving DecidableEq, Repr

/-- The two direction atoms of `check_solution` steps
(`leftToRight` / `rightToLeft`). -/
inductive Direction where
  | leftToRight
  | rightToLeft
deriving DecidableEq, Repr

/-- A parsed candidate step `{ amounts, direction }`
(serialised as `step(Amounts, Direction)` for `check_solution`). -/
structure Step where
  amounts : List Int
  direction : Direction
deriving DecidableEq, Repr

/-- A species entry `{name, count}` of a `PuzzleConfig`. -/
structure Species where
  name : JStr
  count : Nat
deriving DecidableEq, Repr

/-- A safety relationship `{predator, prey}` of a `PuzzleConfig`. -/
structure Relationship where
  predator : JStr
  prey : JStr
deriving DecidableEq, Repr

/-- The configuration object `{species, relationships, starshipCapacity}`. -/
structure PuzzleConfig where
  species : List Species
  relationships : List Relationship
  starshipCapacity : Nat
deriving DecidableEq, Repr

/-- One `move(Move, OldState, NewState)` term of a Prolog solution list. -/
structure SolStep where
  move : List Int
  before : PState
  after : PState
deriving DecidableEq, Repr

/-- The per-position loop `for (let i = 0; i <= capacity; i++)` of
`generateAllowedMoves`, as the list of candidate entries. -/
def rangeInt (capacity : Nat) : List Int :=
  List.map (fun i : Nat => (i : Int)) (List.range (capacity + 1))

/-- The recursive `helper(current, index)` of `generateAllowedMoves`;
the first argument counts the positions still to fill (`n - index`).
At the leaf it keeps `current` iff `1 <= total <= capacity`. -/
def movesHelper (capacity : Nat) : Nat → List Int → List (List Int)
  | 0, current =>
      if 1 ≤ current.sum ∧ current.sum ≤ (capacity : Int) then [current] else []
  | k + 1, current =>
      (rangeInt capacity).flatMap fun i => movesHelper capacity k (current ++ [i])

/-- `generateAllowedMoves(n, capacity)`: all vectors of length `n` with
entries in `[0, capacity]` and sum in `[1, capacity]`, in the fixed
recursive enumeration order (first position varies slowest). -/
def generateAllowedMoves (n capacity : Nat) : List (List Int) :=
  movesHelper capacity n []

/-- `const starshipCapacity = config.starshipCapacity || 2;`
(a zero capacity falls back to `2` under JavaScript truthiness). -/
def effCapacity (cfg : PuzzleConfig) : Nat :=
  if cfg.starshipCapacity = 0 then 2 else cfg.starshipCapacity

/-- `const speciesNames = species.map(s => s.name);` -/
def speciesNames (cfg : PuzzleConfig) : List JStr :=
  cfg.species.map fun s => s.name

/-- The `move/1` facts emitted by `generatePrologCode` (its `movesCode`). -/
def moveFacts (cfg : PuzzleConfig) : List (List Int) :=
  generateAllowedMoves cfg.species.length (effCapacity cfg)

/-- The `init_counts/1` fact: the initial per-species counts. -/
def init_counts (cfg : PuzzleConfig) : List Int :=
  cfg.species.map fun s => (s.count : Int)

/-- The `initial_state/1` fact: all individuals on the start bank. -/
def initial_state (cfg : PuzzleConfig) : PState :=
  ⟨init_counts cfg, Side.start⟩

/-- The `final_state/1` fact: zero counts on the start bank, side `target`. -/
def final_state (cfg : PuzzleConfig) : PState :=
  ⟨List.replicate cfg.species.length 0, Side.target⟩

/-- `Array.prototype.indexOf` on the species-name table: the first index
whose entry equals the key, if any (`-1` in JavaScript becomes `none`). -/
def jsIndexOf (names : List JStr) (key : JStr) : Option Nat :=
  names.findIdx? fun nm => nm == key

/-- One relationship clause of the generated `safe/1` predicate: the
`nth0` lookups of predator and prey counts (baked indices come from
`indexOf`, and `nth0` fails on `-1` or an out-of-range index), the check
`PreyCount =:= 0 ; PreyCount >= PredCount`, and the same check for the
complementary bank counts `Init - Counts`. -/
def relClause (cfg : PuzzleConfig) (counts : List Int) (rel : Relationship) : Bool :=
  match jsIndexOf (speciesNames cfg) rel.predator, jsIndexOf (speciesNames cfg) rel.prey with
  | some pi, some yi =>
      match counts[pi]?, counts[yi]?, (init_counts cfg)[pi]?, (init_counts cfg)[yi]? with
      | some predCount, some preyCount, some initPred, some initPrey =>
          (preyCount == 0 || decide (preyCount ≥ predCount)) &&
          (initPrey - preyCount == 0 ||
            decide (initPrey - preyCount ≥ initPred - predCount))
      | _, _, _, _ => false
  | _, _ => false

/-- The generated `safe/1` predicate.  With no relationships the program
contains the fact `safe(_).`; otherwise one conjoined clause per
relationship, over the state's counts (the side is ignored). -/
def safe (cfg : PuzzleConfig) (s : PState) : Bool :=
  cfg.relationships.all (relClause cfg s.counts)

/-- The generated `apply_move_subtract/3`: componentwise `Z is X - Y`
with the guard `Z >= 0`; fails on length mismatch. -/
def apply_move_subtract : List Int → List Int → Option (List Int)
  | [], [] => some []
  | x :: xs, y :: ys =>
      if x - y ≥ 0 then (apply_move_subtract xs ys).map ((x - y) :: ·) else none
  | _, _ => none

/-- The generated `apply_move_add/4`: componentwise `Z is X + Y` with the
guard `Y =< Init - X`; fails on length mismatch. -/
def apply_move_add : List Int → List Int → List Int → Option (List Int)
  | [], [], [] => some []
  | x :: xs, i :: inits, y :: ys =>
      if y ≤ i - x then (apply_move_add xs inits ys).map ((x + y) :: ·) else none
  | _, _, _ => none

/-- The generated `transition_with_move/3`: two directed clauses.  From
side `start` a chosen `move/1` vector is subtracted (rejecting negative
results) and the new `target`-side state must be `safe`; from side
`target` it is added back (rejecting totals above `init_counts`) and the
new `start`-side state must be `safe`. -/
inductive transition_with_move (cfg : PuzzleConfig) : PState → List Int → PState → Prop where
  | subtract {counts newCounts m : List Int} :
      m ∈ moveFacts cfg →
      apply_move_subtract counts m = some newCounts →
      safe cfg ⟨newCounts, Side.target⟩ = true →
      transition_with_move cfg ⟨counts, Side.start⟩ m ⟨newCounts, Side.target⟩
  | add {counts newCounts m : List Int} :
      m ∈ moveFacts cfg →
      apply_move_add counts (init_counts cfg) m = some newCounts →
      safe cfg ⟨newCounts, Side.start⟩ = true →
      transition_with_move cfg ⟨counts, Side.target⟩ m ⟨newCounts, Side.start⟩

/-- The generated `path/3`: from a state, either stop at `final_state`
with the empty move list, or take one transition to a state not yet
visited and recurse, recording `move(Move, State, NextState)`. -/
inductive path (cfg : PuzzleConfig) : PState → List PState → List SolStep → Prop where
  | done {s : PState} {visited : List PState} :
      s = final_state cfg → path cfg s visited []
  | step {s next : PState} {visited : List PState} {m : List Int} {rest : List SolStep} :
      transition_with_move cfg s m next →
      next ∉ visited →
      path cfg next (next :: visited) rest →
      path cfg s visited (⟨m, s, next⟩ :: rest)

/-- The generated `solve_solution/1`: a path from the initial state with
the initial state already marked visited. -/
def solve_solution (cfg : PuzzleConfig) (sol : List SolStep) : Prop :=
  path cfg (initial_state cfg) [initial_state cfg] sol

/-- The generated `check_solution/2`, evaluated on ground steps (as the
`checkUserSolution` query does): consume the steps in order; a
`leftToRight` step requires side `start` and applies the subtract
transition, a `rightToLeft` step requires side `target` and applies the
add transition; with no steps left the state must be `final_state`. -/
def check_solution (cfg : PuzzleConfig) : List Step → PState → Bool
  | [], s => decide (s = final_state cfg)
  | st :: rest, s =>
      match st.direction, s.side with
      | Direction.leftToRight, Side.start =>
          decide (st.amounts ∈ moveFacts cfg) &&
          (match apply_move_subtract s.counts st.amounts with
           | some newCounts =>
               safe cfg ⟨newCounts, Side.target⟩ &&
               check_solution cfg rest ⟨newCounts, Side.target⟩
           | none => false)
      | Direction.rightToLeft, Side.target =>
          decide (st.amounts ∈ moveFacts cfg) &&
          (match apply_move_add s.counts (init_counts cfg) st.amounts with
           | some newCounts =>
               safe cfg ⟨newCounts, Side.start⟩ &&
               check_solution cfg rest ⟨newCounts, Side.start⟩
           | none => false)
      | _, _ => false

/-- JavaScript `String.prototype.split` with a non-empty string separator,
scanning left to right and cutting at each non-overlapping occurrence.
The `Nat` argument counts separator characters still to be skipped after
a cut (`0` in the initial call). -/
def jsSplitA (sep : JStr) : JStr → Nat → List JStr
  | [], _ => [[]]
  | _c :: rest, k + 1 => jsSplitA sep rest k
  | c :: rest, 0 =>
      if sep.isPrefixOf (c :: rest) ∧ sep ≠ [] then
        [] :: jsSplitA sep rest (sep.length - 1)
      else
        (jsSplitA sep rest 0).modifyHead (c :: ·)

/-- `line.split(sep)` for a non-empty separator. -/
def jsSplit (sep xs : JStr) : List JStr :=
  jsSplitA sep xs 0

/-- JavaScript `String.prototype.trim`: drop whitespace from both ends. -/
def jsTrim (xs : JStr) : JStr :=
  ((xs.dropWhile Char.isWhitespace).reverse.dropWhile Char.isWhitespace).reverse

/-- `parseInt(ds, 10)` on a non-empty all-digit string. -/
def decimalValue (ds : JStr) : Nat :=
  ds.foldl (fun a c => 10 * a + (c.toNat - 48)) 0

/-- The regex match `seg.match(/^(\d+)\s+(\S+)$/)` together with
`parseInt(match[1], 10)`: a non-empty digit run, a non-empty whitespace
run, then a non-empty run free of whitespace reaching the end. -/
def matchSegment (seg : JStr) : Option (Nat × JStr) :=
  let ds := seg.takeWhile Char.isDigit
  let rest := seg.dropWhile Char.isDigit
  let ws := rest.takeWhile Char.isWhitespace
  let nm := rest.dropWhile Char.isWhitespace
  if ds ≠ [] ∧ ws ≠ [] ∧ nm ≠ [] ∧ nm.all (fun c => ! c.isWhitespace) then
    some (decimalValue ds, nm)
  else none

/-- The four `throw new Error(...)` sites of `parseSolutionLines`. -/
inductive ParseError where
  | missingCross (line : JStr)
  | invalidDirection (line : JStr)
  | cannotParseSegment (seg : JStr) (line : JStr)
  | unknownSpecies (nm : JStr) (line : JStr)
deriving DecidableEq, Repr

/-- The segment loop of `parseSolutionLines`: trim each comma-separated
segment, match it against the grammar, resolve the species name through
`indexOf` and accumulate `amounts[idx] += count`. -/
def parseSegments (names : List JStr) (line : JStr) :
    List JStr → List Int → Except ParseError (List Int)
  | [], amounts => .ok amounts
  | segRaw :: rest, amounts =>
      let seg := jsTrim segRaw
      match matchSegment seg with
      | none => .error (.cannotParseSegment seg line)
      | some cn =>
          match jsIndexOf names cn.2 with
          | none => .error (.unknownSpecies cn.2 line)
          | some idx =>
              parseSegments names line rest
                (amounts.set idx (amounts.getD idx 0 + (cn.1 : Int)))

/-- The tail of the per-line body of `parseSolutionLines` once the
direction is known: split the left-hand part (everything before the first
`" cross "`) on commas and parse the segments into an amounts vector. -/
def parseAmounts (names : List JStr) (line : JStr) (direction : Direction) :
    Except ParseError Step :=
  match parseSegments names line
      (jsSplit [','] ((jsSplit (" cross ").toList line).headD []))
      (List.replicate names.length 0) with
  | .error e => .error e
  | .ok amounts => .ok ⟨amounts, direction⟩

/-- The per-line body of `parseSolutionLines`: split on `" cross "`, check
the right-hand part (JavaScript falsiness makes a missing or empty part a
missing-cross error), trim it and map it to a direction, then parse the
left-hand part's comma-separated segments into an amounts vector. -/
def parseSolutionLine (names : List JStr) (line : JStr) : Except ParseError Step :=
  match (jsSplit (" cross ").toList line)[1]? with
  | none => .error (.missingCross line)
  | some rightPart =>
      if rightPart = [] then .error (.missingCross line)
      else if jsTrim rightPart = ("left -> right").toList then
        parseAmounts names line Direction.leftToRight
      else if jsTrim rightPart = ("right -> left").toList then
        parseAmounts names line Direction.rightToLeft
      else .error (.invalidDirection line)

/-- `parseSolutionLines(config, solutionLines)`: parse each line in order,
propagating the first error (the JavaScript `throw`). -/
def parseSolutionLines (cfg : PuzzleConfig) : List JStr → Except ParseError (List Step)
  | [] => .ok []
  | line :: rest =>
      match parseSolutionLine (speciesNames cfg) line with
      | .error e => .error e
      | .ok st =>
          match parseSolutionLines cfg rest with
          | .error e => .error e
          | .ok sts => .ok (st :: sts)

/-- `checkUserSolution(prologProgram, config, solutionLines)` where the
program is the one compiled from `config` (as every caller passes): parse
the candidate lines — an error there is thrown, not caught — then query
`initial_state(Init), check_solution(Steps, Init)` and report whether the
query succeeds. -/
def checkUserSolution (cfg : PuzzleConfig) (solutionLines : List JStr) :
    Except ParseError Bool :=
  match parseSolutionLines cfg solutionLines with
  | .error e => .error e
  | .ok steps => .ok (check_solution cfg steps (initial_state cfg))

/-- Decimal rendering of a natural number, most significant digit first
(the template interpolation of a JavaScript non-negative integer).  The
first argument is fuel, always called with at least the number itself. -/
def natToDecAux : Nat → Nat → JStr
  | 0, _ => []
  | fuel + 1, n =>
      if n = 0 then [] else natToDecAux fuel (n / 10) ++ [Char.ofNat (48 + n % 10)]

/-- Decimal rendering of a natural number (JavaScript's `` `${count}` ``). -/
def natToDec (n : Nat) : JStr :=
  if n = 0 then ['0'] else natToDecAux n n

/-- `sideToText`: the atom `start` renders as `"left"`, anything else as
`"right"`. -/
def sideToText : Side → JStr
  | Side.start => ("left").toList
  | Side.target => ("right").toList

/-- JavaScript `Array.prototype.join` with a separator. -/
def joinWith (sep : JStr) : List JStr → JStr
  | [] => []
  | [x] => x
  | x :: y :: rest => x ++ sep ++ joinWith sep (y :: rest)

/-- The segment loop of `moveToSentence`: one `"<count> <name>"` segment
for every species with a positive moved count, in species order. -/
def moveSegments (species : List Species) (amounts : List Int) : List JStr :=
  (amounts.zip species).filterMap fun p =>
    if 0 < p.1 then some (natToDec p.1.toNat ++ ' ' :: p.2.name) else none

/-- `moveToSentence`: render one solution step as
`"<segments> cross <side-text(before)> -> <side-text(after)>"`. -/
def moveToSentence (species : List Species) (st : SolStep) : JStr :=
  joinWith (", ").toList (moveSegments species st.move) ++
    (" cross ").toList ++
    sideToText st.before.side ++ (" -> ").toList ++ sideToText st.after.side

/-- `solutionToHumanReadableList`: render each step of a solution. -/
def solutionToHumanReadableList (species : List Species) (sol : List SolStep) : List JStr :=
  sol.map (moveToSentence species)

/-- The `Step` that `parseSolutionLines` recovers from an encoded solution
step: the move vector with the direction read off the step's sides. -/
def stepOfSolStep (st : SolStep) : Step :=
  ⟨st.move,
    if st.before.side = Side.start then Direction.leftToRight else Direction.rightToLeft⟩

/-- `Math.floor(Math.random() * n)` where the random stream is modelled as
an explicit sequence of naturals indexed by draw position. -/
def randFloor (rng : Nat → Nat) (k n : Nat) : Nat :=
  if n = 0 then 0 else rng k % n

/-- The `randomName` helper of `generateRandomConfig`: five random
lowercase letters, consuming five stream draws. -/
def randomName (rng : Nat → Nat) (k : Nat) : JStr :=
  (List.range 5).map fun j => Char.ofNat (97 + randFloor rng (k + j) 26)

/-- The prey sampling of `generateRandomConfig`: draw `preyIdx` and keep
redrawing while it equals `predIdx`.  The loop is unbounded in the source;
the fuel argument makes the divergence observable as `none`.  Returns the
chosen index and the next stream position. -/
def samplePrey (rng : Nat → Nat) (numSpecies predIdx : Nat) :
    Nat → Nat → Option (Nat × Nat)
  | 0, _ => none
  | fuel + 1, k =>
      let preyIdx := randFloor rng k numSpecies
      if preyIdx = predIdx then samplePrey rng numSpecies predIdx fuel (k + 1)
      else some (preyIdx, k + 1)

/-- The relationship loop of `generateRandomConfig`: while fewer than
`numRel` pairs are chosen and attempts remain (1000 initially), draw a
predator index, sample a distinct prey index, and record the ordered pair
unless already used.  `none` reports divergence of the inner sampling. -/
def genRels (rng : Nat → Nat) (numSpecies numRel innerFuel : Nat) :
    Nat → Nat → List (Nat × Nat) → Option (List (Nat × Nat))
  | 0, _, acc => some acc
  | attemptsLeft + 1, k, acc =>
      if numRel ≤ acc.length then some acc
      else
        let predIdx := randFloor rng k numSpecies
        match samplePrey rng numSpecies predIdx innerFuel (k + 1) with
        | none => none
        | some pk =>
            if (predIdx, pk.1) ∈ acc then
              genRels rng numSpecies numRel innerFuel attemptsLeft pk.2 acc
            else
              genRels rng numSpecies numRel innerFuel attemptsLeft pk.2
                (acc ++ [(predIdx, pk.1)])

/-- `generateRandomConfig(numSpecies, numIndividualsPerSpecies,
numRelationships, starshipCapacity)` with the random stream explicit:
generate the species (five draws per name), then the relationship pairs;
`none` reports divergence of the unbounded prey-sampling loop. -/
def generateRandomConfig (rng : Nat → Nat)
    (numSpecies numIndividualsPerSpecies numRelationships starshipCapacity : Nat)
    (innerFuel : Nat) : Option PuzzleConfig :=
  let species := (List.range numSpecies).map fun i =>
    Species.mk (randomName rng (5 * i)) numIndividualsPerSpecies
  match genRels rng numSpecies numRelationships innerFuel 1000 (5 * numSpecies) [] with
  | none => none
  | some pairs =>
      some ⟨species,
        pairs.map fun p =>
          ⟨(species.getD p.1 ⟨[], 0⟩).name, (species.getD p.2 ⟨[], 0⟩).name⟩,
        starshipCapacity⟩

/-- Specification wording of one `safe/1` relationship clause: both name
lookups resolve, the prey is absent or not outnumbered at the given bank,
and the same holds for the complementary bank counts `initial - counts`. -/
def specRelSafe (cfg : PuzzleConfig) (counts : List Int) (rel : Relationship) : Prop :=
  ∃ pi yi predCount preyCount initPred initPrey,
    jsIndexOf (speciesNames cfg) rel.predator = some pi ∧
    jsIndexOf (speciesNames cfg) rel.prey = some yi ∧
    counts[pi]? = some predCount ∧ counts[yi]? = some preyCount ∧
    (init_counts cfg)[pi]? = some initPred ∧ (init_counts cfg)[yi]? = some initPrey ∧
    (preyCount = 0 ∨ preyCount ≥ predCount) ∧
    (initPrey - preyCount = 0 ∨ initPrey - preyCount ≥ initPred - predCount)

/-- Specification wording of the transition relation: from side `start`
subtract a legal move componentwise, with no component going negative;
from side `target` add a legal move componentwise, with no component
exceeding the species' initial count; either way the resulting state must
be safe. -/
def specTransition (cfg : PuzzleConfig) (s : PState) (m : List Int) (s2 : PState) : Prop :=
  (s.side = Side.start ∧ s2.side = Side.target ∧ m ∈ moveFacts cfg ∧
    s.counts.length = m.length ∧
    s2.counts = List.zipWith (fun x y => x - y) s.counts m ∧
    (∀ z ∈ s2.counts, 0 ≤ z) ∧ safe cfg s2 = true)
  ∨
  (s.side = Side.target ∧ s2.side = Side.start ∧ m ∈ moveFacts cfg ∧
    s.counts.length = m.length ∧ s.counts.length = (init_counts cfg).length ∧
    s2.counts = List.zipWith (fun x y => x + y) s.counts m ∧
    List.Forall₂ (fun z i => z ≤ i) s2.counts (init_counts cfg) ∧ safe cfg s2 = true)

/-- Specification wording of a decoded segment with a one-or-more
whitespace separator (the `\s+` of the implemented regex): a non-empty
digit run, non-empty whitespace, then a whitespace-free name. -/
def segMatchesWS (seg : JStr) (count : Nat) (nm : JStr) : Prop :=
  ∃ ds ws, seg = ds ++ ws ++ nm ∧ ds ≠ [] ∧ (∀ c ∈ ds, c.isDigit = true) ∧
    ws ≠ [] ∧ (∀ c ∈ ws, c.isWhitespace = true) ∧
    nm ≠ [] ∧ (∀ c ∈ nm, c.isWhitespace = false) ∧ count = decimalValue ds

/-- The claim's wording of a decoded segment with a single-space
separator: `"<integer> <name>"` with exactly one space between them. -/
def segMatchesSingle (seg : JStr) (count : Nat) (nm : JStr) : Prop :=
  ∃ ds, seg = ds ++ ' ' :: nm ∧ ds ≠ [] ∧ (∀ c ∈ ds, c.isDigit = true) ∧
    nm ≠ [] ∧ (∀ c ∈ nm, c.isWhitespace = false) ∧ count = decimalValue ds

/-- Sum of the counts of the segments naming a given species: multiple
segments naming the same species accumulate additively. -/
def segSum (pairs : List (Nat × JStr)) (nm : JStr) : Int :=
  ((pairs.filter fun p => p.2 == nm).map fun p => (p.1 : Int)).sum

/-- Specification wording of decoding one step line, parameterised by the
segment grammar: split the line on `" cross "`; the part after the first
separator must trim to exactly one of the two direction texts; the part
before it splits on commas into segments, each matching the segment
grammar with a known species name after trimming; each species' amount is
the sum of the counts of the segments naming it. -/
def specDecodesTo (segMatch : JStr → Nat → JStr → Prop)
    (names : List JStr) (line : JStr) (st : Step) : Prop :=
  ∃ leftPart rightPart pairs,
    (jsSplit (" cross ").toList line)[0]? = some leftPart ∧
    (jsSplit (" cross ").toList line)[1]? = some rightPart ∧
    ((jsTrim rightPart = ("left -> right").toList ∧ st.direction = Direction.leftToRight) ∨
     (jsTrim rightPart = ("right -> left").toList ∧ st.direction = Direction.rightToLeft)) ∧
    List.Forall₂ (fun seg p => segMatch (jsTrim seg) p.1 p.2) (jsSplit [','] leftPart) pairs ∧
    (∀ p ∈ pairs, p.2 ∈ names) ∧
    st.amounts.length = names.length ∧
    (∀ (i : Nat) (nmi : JStr), names[i]? = some nmi → st.amounts[i]? = some (segSum pairs nmi))

/-- Characters allowed in species names by the data model:
alphanumeric or underscore. -/
def isNameChar (c : Char) : Bool :=
  c.isAlphanum || c == '_'

/-- A well-formed species name: non-empty, alphanumeric/underscore. -/
def goodName (nm : JStr) : Prop :=
  nm ≠ [] ∧ ∀ c ∈ nm, isNameChar c = true

/-- A config whose species names satisfy the data-model invariants
(well-formed and unique) and avoid the reserved word `"cross"`. -/
def goodConfig (cfg : PuzzleConfig) : Prop :=
  (speciesNames cfg).Nodup ∧ (∀ nm ∈ speciesNames cfg, goodName nm) ∧
    ∀ nm ∈ speciesNames cfg, nm ≠ ("cross").toList

/-- The plain lexicographic enumeration of all vectors of a given length
with entries drawn from `rangeInt capacity`, first position slowest. -/
def tuples (capacity : Nat) : Nat → List (List Int)
  | 0 => [[]]
  | k + 1 => (rangeInt capacity).flatMap fun i => (tuples capacity k).map fun t => i :: t

/-- Concrete scenario config: `cats` 2, `dogs` 1, capacity 3, no
relationships. -/
def catsDogsConfig : PuzzleConfig :=
  ⟨[⟨("cats").toList, 2⟩, ⟨("dogs").toList, 1⟩], [], 3⟩

/-- A config whose single species is named `cross` (a name the generator
could produce: five lowercase letters). -/
def crossConfig : PuzzleConfig :=
  ⟨[⟨("cross").toList, 1⟩], [], 1⟩

/-- The one-step solution moving the single `cross` individual over. -/
def crossSolution : List SolStep :=
  [⟨[1], initial_state crossConfig, final_state crossConfig⟩]

/-- A config with one species of count zero (total population 0). -/
def zeroCountConfig : PuzzleConfig :=
  ⟨[⟨("aaaaa").toList, 0⟩], [], 1⟩

/-- A config with one species of count one, capacity one. -/
def oneSpeciesConfig : PuzzleConfig :=
  ⟨[⟨("aaaaa").toList, 1⟩], [], 1⟩

/-- A config whose initial (and hence final) state violates the safety
predicate: predator `aaaaa` count 2 against prey `bbbbb` count 1. -/
def unsafeInitConfig : PuzzleConfig :=
  ⟨[⟨("aaaaa").toList, 2⟩, ⟨("bbbbb").toList, 1⟩],
    [⟨("aaaaa").toList, ("bbbbb").toList⟩], 3⟩

/-- The one-step solution moving both cats and the dog at once. -/
def catsDogsSolution : List SolStep :=
  [⟨[2, 1], initial_state catsDogsConfig, final_state catsDogsConfig⟩]

/-- A well-formed encoded segment: a non-empty digit run, one space, and
a non-empty alphanumeric/underscore species name other than `cross`. -/
def SegGood (s : JStr) : Prop :=
  ∃ ds nm, s = ds ++ ' ' :: nm ∧ ds ≠ [] ∧ (∀ c ∈ ds, c.isDigit = true) ∧
    goodName nm ∧ nm ≠ ("cross").toList

/-! ## Helper lemmas -/

theorem relClause_iff (cfg : PuzzleConfig) (counts : List Int) (rel : Relationship) :
    relClause cfg counts rel = true ↔ specRelSafe cfg counts rel := by
  unfold relClause specRelSafe
  cases hpred : jsIndexOf (speciesNames cfg) rel.predator with
  | none => simp [hpred]
  | some pi =>
    cases hprey : jsIndexOf (speciesNames cfg) rel.prey with
    | none => simp [hpred, hprey]
    | some yi =>
      cases hc1 : counts[pi]? with
      | none => simp [hpred, hprey, hc1]
      | some predCount =>
        cases hc2 : counts[yi]? with
        | none => simp [hpred, hprey, hc1, hc2]
        | some preyCount =>
          cases hi1 : (init_counts cfg)[pi]? with
          | none => simp [hpred, hprey, hc1, hc2, hi1]
          | some initPred =>
            cases hi2 : (init_counts cfg)[yi]? with
            | none => simp [hpred, hprey, hc1, hc2, hi1, hi2]
            | some initPrey =>
              simp [hpred, hprey, hc1, hc2, hi1, hi2, Bool.and_eq_true,
                Bool.or_eq_true, decide_eq_true_iff]

theorem apply_move_subtract_eq_some (xs : List Int) : ∀ (ys zs : List Int),
    apply_move_subtract xs ys = some zs ↔
      xs.length = ys.length ∧ zs = List.zipWith (fun x y => x - y) xs ys ∧
        ∀ z ∈ zs, 0 ≤ z := by
  induction xs with
  | nil =>
    intro ys zs
    cases ys with
    | nil =>
      simp [apply_move_subtract]
      rintro rfl
      simp
    | cons y ys => simp [apply_move_subtract]
  | cons x xs ih =>
    intro ys zs
    cases ys with
    | nil => simp [apply_move_subtract]
    | cons y ys =>
      simp only [apply_move_subtract, List.zipWith, List.length_cons]
      by_cases h : x - y ≥ 0
      · simp only [if_pos h, Option.map_eq_some']
        constructor
        · rintro ⟨zs1, hz1, rfl⟩
          obtain ⟨hl, hz, hpos⟩ := (ih ys zs1).mp hz1
          refine ⟨by omega, by rw [hz], ?_⟩
          intro z hz2
          rcases List.mem_cons.mp hz2 with rfl | hz3
          · omega
          · exact hpos z hz3
        · rintro ⟨hl, rfl, hpos⟩
          refine ⟨List.zipWith (fun x y => x - y) xs ys, ?_, rfl⟩
          exact (ih ys _).mpr ⟨by omega, rfl, fun z hz => hpos z (List.mem_cons_of_mem _ hz)⟩
      · simp only [if_neg h]
        constructor
        · intro h2
          exact absurd h2 (by simp)
        · rintro ⟨hl, rfl, hpos⟩
          exact absurd (hpos (x - y) (List.mem_cons_self _ _)) h

theorem apply_move_add_eq_some (xs : List Int) : ∀ (inits ys zs : List Int),
    apply_move_add xs inits ys = some zs ↔
      xs.length = inits.length ∧ xs.length = ys.length ∧
        zs = List.zipWith (fun x y => x + y) xs ys ∧
        List.Forall₂ (fun z i => z ≤ i) zs inits := by
  induction xs with
  | nil =>
    intro inits ys zs
    cases inits with
    | nil =>
      cases ys with
      | nil => simp [apply_move_add]
      | cons y ys => simp [apply_move_add]
    | cons i inits =>
      cases ys <;> simp [apply_move_add]
  | cons x xs ih =>
    intro inits ys zs
    cases inits with
    | nil => cases ys <;> simp [apply_move_add]
    | cons i inits =>
      cases ys with
      | nil => simp [apply_move_add]
      | cons y ys =>
        simp only [apply_move_add, List.zipWith, List.length_cons]
        by_cases h : y ≤ i - x
        · simp only [if_pos h, Option.map_eq_some']
          constructor
          · rintro ⟨zs1, hz1, rfl⟩
            obtain ⟨hl1, hl2, hz, hf⟩ := (ih inits ys zs1).mp hz1
            exact ⟨by omega, by omega, by rw [hz],
              List.Forall₂.cons (by omega) hf⟩
          · rintro ⟨hl1, hl2, rfl, hf⟩
            rcases List.forall₂_cons.mp hf with ⟨hzi, hf2⟩
            exact ⟨List.zipWith (fun x y => x + y) xs ys,
              (ih inits ys _).mpr ⟨by omega, by omega, rfl, hf2⟩, rfl⟩
        · simp only [if_neg h]
          constructor
          · intro h2
            exact absurd h2 (by simp)
          · rintro ⟨hl1, hl2, rfl, hf⟩
            rcases List.forall₂_cons.mp hf with ⟨hzi, hf2⟩
            exact absurd hzi (by omega)

theorem transition_safe_after {cfg : PuzzleConfig} {s s2 : PState} {m : List Int}
    (h : transition_with_move cfg s m s2) : safe cfg s2 = true := by
  cases h with
  | subtract hm happ hsafe => exact hsafe
  | add hm happ hsafe => exact hsafe

theorem path_final_safe {cfg : PuzzleConfig} {s : PState} {visited : List PState}
    {sol : List SolStep} (h : path cfg s visited sol) :
    (s = final_state cfg ∧ sol = []) ∨ safe cfg (final_state cfg) = true := by
  induction h with
  | done hfin => exact Or.inl ⟨hfin, rfl⟩
  | step ht hnv hrest ih =>
    rcases ih with ⟨hfin, -⟩ | hsafe
    · exact Or.inr (hfin ▸ transition_safe_after ht)
    · exact Or.inr hsafe

theorem check_solution_final_safe {cfg : PuzzleConfig} :
    ∀ {steps : List Step} {s : PState}, check_solution cfg steps s = true →
      (s = final_state cfg ∧ steps = []) ∨ safe cfg (final_state cfg) = true := by
  intro steps
  induction steps with
  | nil =>
    intro s h
    exact Or.inl ⟨by simpa [check_solution] using h, rfl⟩
  | cons st rest ih =>
    intro s h
    obtain ⟨counts, side⟩ := s
    cases hd : st.direction <;> cases side <;>
      simp only [check_solution, hd, Bool.and_eq_true] at h
    case leftToRight.target => exact absurd h (by simp)
    case rightToLeft.start => exact absurd h (by simp)
    case leftToRight.start =>
      rcases h with ⟨-, h⟩
      cases happ : apply_move_subtract counts st.amounts with
      | none => rw [happ] at h; exact absurd h (by simp)
      | some newCounts =>
        rw [happ, Bool.and_eq_true] at h
        rcases h with ⟨hsafe, hrec⟩
        rcases ih hrec with ⟨hfin, -⟩ | hs
        · exact Or.inr (hfin ▸ hsafe)
        · exact Or.inr hs
    case rightToLeft.target =>
      rcases h with ⟨-, h⟩
      cases happ : apply_move_add counts (init_counts cfg) st.amounts with
      | none => rw [happ] at h; exact absurd h (by simp)
      | some newCounts =>
        rw [happ, Bool.and_eq_true] at h
        rcases h with ⟨hsafe, hrec⟩
        rcases ih hrec with ⟨hfin, -⟩ | hs
        · exact Or.inr (hfin ▸ hsafe)
        · exact Or.inr hs

theorem list_all_congr {α : Type} {l : List α} {p q : α → Bool}
    (h : ∀ a ∈ l, p a = q a) : l.all p = l.all q := by
  induction l with
  | nil => rfl
  | cons a l ih =>
    simp only [List.all_cons, h a (List.mem_cons_self a l),
      ih fun b hb => h b (List.mem_cons_of_mem a hb)]

theorem jsIndexOf_lt_length {names : List JStr} {key : JStr} {i : Nat}
    (h : jsIndexOf names key = some i) : i < names.length := by
  unfold jsIndexOf at h
  exact List.findIdx?_eq_some_iff_findIdx_eq.mp h |>.1

theorem length_init_counts (cfg : PuzzleConfig) :
    (init_counts cfg).length = cfg.species.length := by
  simp [init_counts]

theorem safe_final_eq_safe_initial (cfg : PuzzleConfig) :
    safe cfg (final_state cfg) = safe cfg (initial_state cfg) := by
  unfold safe final_state initial_state
  refine list_all_congr fun rel hrel => ?_
  unfold relClause
  cases hpred : jsIndexOf (speciesNames cfg) rel.predator with
  | none => rfl
  | some pi =>
    cases hprey : jsIndexOf (speciesNames cfg) rel.prey with
    | none => rfl
    | some yi =>
      have hpi : pi < cfg.species.length := by
        have := jsIndexOf_lt_length hpred
        simpa [speciesNames] using this
      have hyi : yi < cfg.species.length := by
        have := jsIndexOf_lt_length hprey
        simpa [speciesNames] using this
      have hz1 : (List.replicate cfg.species.length (0 : Int))[pi]? = some 0 := by
        simp [List.getElem?_replicate, hpi]
      have hz2 : (List.replicate cfg.species.length (0 : Int))[yi]? = some 0 := by
        simp [List.getElem?_replicate, hyi]
      cases hi1 : (init_counts cfg)[pi]? with
      | none =>
          rw [List.getElem?_eq_none_iff, length_init_counts] at hi1
          omega
      | some initPred =>
        cases hi2 : (init_counts cfg)[yi]? with
        | none =>
            rw [List.getElem?_eq_none_iff, length_init_counts] at hi2
            omega
        | some initPrey =>
          simp only [hz1, hz2, hi1, hi2]
          simp [sub_zero, sub_self]

/-! ## Claim C4 -/

/-- C4: the compiled `safe/1` predicate holds of a state exactly when, for
every relationship `(predator, prey)` of the config, the state's counts
satisfy `prey count == 0 OR prey count >= predator count` at the given
location and the same inequality for the complementary location's counts
derived as `initial - counts`; all relationship clauses are conjoined; and
for a config with zero relationships `safe/1` is unconditionally true for
every state. -/
theorem safe_characterisation (cfg : PuzzleConfig) (s : PState) :
    (safe cfg s = true ↔ ∀ rel ∈ cfg.relationships, specRelSafe cfg s.counts rel) ∧
    (cfg.relationships = [] → safe cfg s = true) := by
  constructor
  · rw [safe, List.all_eq_true]
    constructor
    · intro h rel hrel
      exact (relClause_iff cfg s.counts rel).mp (h rel hrel)
    · intro h rel hrel
      exact (relClause_iff cfg s.counts rel).mpr (h rel hrel)
  · intro h
    rw [safe, h]
    rfl

/-! ## Claim C5 -/

/-- C5: the compiled `transition_with_move` relation permits exactly two
kinds of steps.  From side `start` it subtracts a legal move's vector
componentwise from the current counts, failing if any resulting component
is negative, and requires the result safe; from side `target` it adds a
legal move's vector componentwise, failing if any resulting component
exceeds that species' initial count, and requires the result safe. -/
theorem transition_with_move_characterisation (cfg : PuzzleConfig)
    (s : PState) (m : List Int) (s2 : PState) :
    transition_with_move cfg s m s2 ↔ specTransition cfg s m s2 := by
  constructor
  · intro h
    cases h with
    | subtract hm happ hsafe =>
      left
      obtain ⟨hl, hz, hpos⟩ := (apply_move_subtract_eq_some _ _ _).mp happ
      exact ⟨rfl, rfl, hm, hl, hz, fun z hz2 => hpos z (hz ▸ hz2), hsafe⟩
    | add hm happ hsafe =>
      right
      obtain ⟨hl1, hl2, hz, hf⟩ := (apply_move_add_eq_some _ _ _ _).mp happ
      exact ⟨rfl, rfl, hm, hl2, hl1, hz, hz ▸ hf, hsafe⟩
  · intro h
    obtain ⟨counts, side⟩ := s
    obtain ⟨counts2, side2⟩ := s2
    rcases h with ⟨h1, h2, hm, hl, hz, hpos, hsafe⟩ | ⟨h1, h2, hm, hl, hl2, hz, hf, hsafe⟩
    · cases h1; cases h2
      have hz2 : counts2 = List.zipWith (fun x y => x - y) counts m := hz
      exact transition_with_move.subtract hm
        ((apply_move_subtract_eq_some _ _ _).mpr
          ⟨hl, hz2, fun z hzz => hpos z (hz2 ▸ hzz)⟩) hsafe
    · cases h1; cases h2
      have hz2 : counts2 = List.zipWith (fun x y => x + y) counts m := hz
      exact transition_with_move.add hm
        ((apply_move_add_eq_some _ _ _ _).mpr ⟨hl2, hl, hz2, hf⟩) hsafe

/-! ## Claim C1 -/

/-- C1 counterexample: on a candidate line with an invalid direction token
the decode fails, and `checkUserSolution` does not return `false` — it
propagates the decode error as an exception (`Except.error`) past the
verify boundary. -/
theorem checkUserSolution_decode_error_counterexample :
    parseSolutionLines catsDogsConfig [("2 cats cross up -> down").toList] =
      Except.error (ParseError.invalidDirection (("2 cats cross up -> down").toList)) ∧
    checkUserSolution catsDogsConfig [("2 cats cross up -> down").toList] ≠
      Except.ok false ∧
    checkUserSolution catsDogsConfig [("2 cats cross up -> down").toList] =
      Except.error (ParseError.invalidDirection (("2 cats cross up -> down").toList)) := by
  refine ⟨rfl, fun h => ?_, rfl⟩
  rw [show checkUserSolution catsDogsConfig [("2 cats cross up -> down").toList] =
    Except.error (ParseError.invalidDirection (("2 cats cross up -> down").toList))
    from rfl] at h
  exact Except.noConfusion h

/-- C1 (amended): whenever decoding of the candidate step lines fails,
`checkUserSolution` propagates that decode failure as an exception (the
JavaScript `throw` from `parseSolutionLines` is not caught inside
`checkUserSolution`); in particular it never returns a boolean. -/
theorem checkUserSolution_propagates_decode_error (cfg : PuzzleConfig)
    (lines : List JStr) (e : ParseError)
    (h : parseSolutionLines cfg lines = Except.error e) :
    checkUserSolution cfg lines = Except.error e ∧
      ∀ b : Bool, checkUserSolution cfg lines ≠ Except.ok b := by
  unfold checkUserSolution
  rw [h]
  exact ⟨rfl, fun b hb => by cases hb⟩

/-- Witness for `checkUserSolution_propagates_decode_error` at a concrete
config and line. -/
theorem checkUserSolution_propagates_decode_error_witness :
    parseSolutionLines catsDogsConfig [("1 cats cross left to right").toList] =
      Except.error (ParseError.invalidDirection (("1 cats cross left to right").toList)) ∧
    (checkUserSolution catsDogsConfig [("1 cats cross left to right").toList] =
      Except.error (ParseError.invalidDirection (("1 cats cross left to right").toList)) ∧
      ∀ b : Bool, checkUserSolution catsDogsConfig
        [("1 cats cross left to right").toList] ≠ Except.ok b) :=
  ⟨rfl, checkUserSolution_propagates_decode_error catsDogsConfig
    [("1 cats cross left to right").toList]
    (ParseError.invalidDirection (("1 cats cross left to right").toList)) rfl⟩

/-! ## Claim C7 -/

theorem randFloor_one (rng : Nat → Nat) (k : Nat) : randFloor rng k 1 = 0 := by
  simp [randFloor, Nat.mod_one]

theorem samplePrey_one_diverges (rng : Nat → Nat) :
    ∀ (fuel k : Nat), samplePrey rng 1 0 fuel k = none := by
  intro fuel
  induction fuel with
  | zero => intro k; rfl
  | succ fuel ih =>
    intro k
    simp only [samplePrey, randFloor_one, if_pos rfl]
    exact ih (k + 1)

/-- C7: because the prey-resampling `while` loop has no attempt bound, a
single-species input with at least one requested relationship never
terminates: `preyIdx` always equals `predIdx = 0`, so no amount of inner
fuel lets `generateRandomConfig` return, for any random stream. -/
theorem generateRandomConfig_one_species_diverges (rng : Nat → Nat)
    (numIndividualsPerSpecies starshipCapacity innerFuel : Nat) :
    generateRandomConfig rng 1 numIndividualsPerSpecies 1 starshipCapacity
      innerFuel = none := by
  unfold generateRandomConfig
  have h : genRels rng 1 1 innerFuel 1000 5 [] = none := by
    show genRels rng 1 1 innerFuel (999 + 1) 5 [] = none
    simp only [genRels, List.length_nil, randFloor_one,
      samplePrey_one_diverges rng innerFuel 6]
    rfl
  rw [h]

/-! ## Claim C3: the move enumeration -/

theorem mem_rangeInt {c : Nat} {x : Int} :
    x ∈ rangeInt c ↔ 0 ≤ x ∧ x ≤ (c : Int) := by
  unfold rangeInt
  constructor
  · intro h
    obtain ⟨i, hi, rfl⟩ := List.mem_map.mp h
    have h2 := List.mem_range.mp hi
    exact ⟨Int.ofNat_nonneg i, by exact_mod_cast Nat.lt_succ_iff.mp h2⟩
  · rintro ⟨h0, h1⟩
    refine List.mem_map.mpr ⟨x.toNat, List.mem_range.mpr ?_, Int.toNat_of_nonneg h0⟩
    have h2 : (x.toNat : Int) = x := Int.toNat_of_nonneg h0
    omega

theorem rangeInt_pairwise (c : Nat) :
    (rangeInt c).Pairwise (fun x y => x < y) := by
  unfold rangeInt
  exact List.Pairwise.map (fun i : Nat => (i : Int))
    (fun a b h => by simpa using h) (List.pairwise_lt_range (c + 1))

theorem movesHelper_eq (c : Nat) : ∀ (k : Nat) (cur : List Int),
    movesHelper c k cur =
      ((tuples c k).map fun t => cur ++ t).filter fun v =>
        decide (1 ≤ v.sum) && decide (v.sum ≤ (c : Int)) := by
  intro k
  induction k with
  | zero =>
    intro cur
    simp only [movesHelper, tuples, List.map_cons, List.map_nil, List.append_nil,
      List.filter]
    by_cases h : 1 ≤ cur.sum ∧ cur.sum ≤ (c : Int)
    · rw [if_pos h]
      simp [h.1, h.2]
    · rw [if_neg h]
      rcases Decidable.not_and_iff_or_not.mp h with h1 | h1 <;>
        simp [h1]
  | succ k ih =>
    intro cur
    simp only [movesHelper, tuples]
    rw [List.map_flatMap, List.filter_flatMap]
    refine List.flatMap_congr ?_ -- pointwise equality of the per-entry lists
    intro i _
    rw [ih (cur ++ [i]), List.map_map]
    congr 1
    refine List.map_congr_left ?_
    intro t _
    simp [Function.comp, List.append_assoc]

theorem generateAllowedMoves_eq_filter_tuples (n c : Nat) :
    generateAllowedMoves n c =
      (tuples c n).filter fun v => decide (1 ≤ v.sum) && decide (v.sum ≤ (c : Int)) := by
  unfold generateAllowedMoves
  rw [movesHelper_eq]
  simp

theorem mem_tuples {c : Nat} : ∀ {k : Nat} {t : List Int},
    t ∈ tuples c k ↔ t.length = k ∧ ∀ x ∈ t, 0 ≤ x ∧ x ≤ (c : Int) := by
  intro k
  induction k with
  | zero =>
    intro t
    simp only [tuples, List.mem_singleton]
    constructor
    · rintro rfl
      simp
    · rintro ⟨h, -⟩
      exact List.eq_nil_of_length_eq_zero h
  | succ k ih =>
    intro t
    simp only [tuples, List.mem_flatMap, List.mem_map]
    constructor
    · rintro ⟨i, hi, t2, ht2, rfl⟩
      obtain ⟨hlen, hall⟩ := ih.mp ht2
      refine ⟨by simp [hlen], ?_⟩
      intro x hx
      rcases List.mem_cons.mp hx with rfl | hx2
      · exact mem_rangeInt.mp hi
      · exact hall x hx2
    · rintro ⟨hlen, hall⟩
      cases t with
      | nil => simp at hlen
      | cons i t2 =>
        refine ⟨i, mem_rangeInt.mpr (hall i (List.mem_cons_self _ _)), t2, ?_, rfl⟩
        exact ih.mpr ⟨by simpa using hlen, fun x hx => hall x (List.mem_cons_of_mem _ hx)⟩

theorem tuples_pairwise_lex (c : Nat) : ∀ (k : Nat),
    (tuples c k).Pairwise (List.Lex (fun x y : Int => x < y)) := by
  intro k
  induction k with
  | zero => simp [tuples]
  | succ k ih =>
    rw [tuples, List.pairwise_flatMap]
    constructor
    · intro i _
      exact ih.map _ fun a b h => List.Lex.cons h
    · refine (rangeInt_pairwise c).imp ?_
      intro i j hij
      rintro x hx y hy
      obtain ⟨t1, -, rfl⟩ := List.mem_map.mp hx
      obtain ⟨t2, -, rfl⟩ := List.mem_map.mp hy
      exact List.Lex.rel hij

theorem lex_lt_irrefl : ∀ (l : List Int), ¬ List.Lex (fun x y : Int => x < y) l l := by
  intro l
  induction l with
  | nil => intro h; cases h
  | cons x l ih =>
    intro h
    cases h with
    | cons h2 => exact ih h2
    | rel h2 => exact lt_irrefl x h2

/-- C3: for a config with `n` species and positive capacity `c`, the
compiled `move/1` facts are exactly the integer vectors of length `n`
with entries in `[0, c]` and sum in `[1, c]`; they are pairwise distinct;
and they are listed in strictly increasing lexicographic order with the
first (outer) species position most significant — the fixed recursive
enumeration order in which the outer position varies slowest.  (A
strictly lexicographically sorted list is uniquely determined by its
member set, so these three facts pin the emitted list completely.) -/
theorem moveFacts_characterisation (cfg : PuzzleConfig)
    (h : 0 < cfg.starshipCapacity) :
    (∀ v : List Int, v ∈ moveFacts cfg ↔
        v.length = cfg.species.length ∧
        (∀ x ∈ v, 0 ≤ x ∧ x ≤ (cfg.starshipCapacity : Int)) ∧
        1 ≤ v.sum ∧ v.sum ≤ (cfg.starshipCapacity : Int)) ∧
    (moveFacts cfg).Pairwise (List.Lex (fun x y : Int => x < y)) ∧
    (moveFacts cfg).Nodup := by
  have heff : effCapacity cfg = cfg.starshipCapacity := by
    unfold effCapacity
    rw [if_neg (by omega)]
  have hpw : (moveFacts cfg).Pairwise (List.Lex (fun x y : Int => x < y)) := by
    unfold moveFacts
    rw [generateAllowedMoves_eq_filter_tuples]
    exact List.Pairwise.sublist (List.filter_sublist _) (tuples_pairwise_lex _ _)
  have hnd : (moveFacts cfg).Nodup := by
    refine hpw.imp ?_
    intro a b hlex heq
    subst heq
    exact lex_lt_irrefl a hlex
  refine ⟨?_, hpw, hnd⟩
  intro v
  unfold moveFacts
  rw [generateAllowedMoves_eq_filter_tuples, List.mem_filter, mem_tuples, heff,
    Bool.and_eq_true, decide_eq_true_iff, decide_eq_true_iff]
  tauto

/-- Witness for `moveFacts_characterisation` at the cats/dogs config. -/
theorem moveFacts_characterisation_witness :
    0 < catsDogsConfig.starshipCapacity ∧
    ((∀ v : List Int, v ∈ moveFacts catsDogsConfig ↔
        v.length = catsDogsConfig.species.length ∧
        (∀ x ∈ v, 0 ≤ x ∧ x ≤ (catsDogsConfig.starshipCapacity : Int)) ∧
        1 ≤ v.sum ∧ v.sum ≤ (catsDogsConfig.starshipCapacity : Int)) ∧
    (moveFacts catsDogsConfig).Pairwise (List.Lex (fun x y : Int => x < y)) ∧
    (moveFacts catsDogsConfig).Nodup) :=
  ⟨by decide, moveFacts_characterisation catsDogsConfig (by decide)⟩

/-! ## Claim C8 -/

/-- C8 counterexample: a config with zero relationships whose total
population (zero) is at most the capacity, for which `solve` returns no
solution at all — in particular no one-step solution — because the empty
move is not a legal move and the initial state differs from the final
state. -/
theorem solve_zero_population_counterexample :
    zeroCountConfig.relationships = [] ∧
    (init_counts zeroCountConfig).sum ≤ (zeroCountConfig.starshipCapacity : Int) ∧
    ¬ ∃ sol : List SolStep, solve_solution zeroCountConfig sol := by
  refine ⟨rfl, by decide, ?_⟩
  rintro ⟨sol, h⟩
  unfold solve_solution at h
  cases h with
  | done hfin => exact absurd hfin (by decide)
  | step ht hnv hrest =>
    rw [show initial_state zeroCountConfig = (⟨[0], Side.start⟩ : PState) from rfl] at ht
    cases ht with
    | subtract hm happ hsafe =>
      rw [show moveFacts zeroCountConfig = [[1]] from rfl] at hm
      rw [List.mem_singleton.mp hm] at happ
      simp [apply_move_subtract] at happ

/-- C8 (amended): for every config with zero relationships whose total
population is at least 1 and at most the capacity, `solve` returns the
one-step solution that moves every individual at once from start to
target. -/
theorem solve_one_step_solution (cfg : PuzzleConfig)
    (h0 : cfg.relationships = [])
    (h1 : 1 ≤ (init_counts cfg).sum)
    (h2 : (init_counts cfg).sum ≤ (cfg.starshipCapacity : Int)) :
    solve_solution cfg [⟨init_counts cfg, initial_state cfg, final_state cfg⟩] := by
  have hcap : 0 < cfg.starshipCapacity := by omega
  have hnonneg : ∀ x ∈ init_counts cfg, 0 ≤ x := by
    intro x hx
    obtain ⟨s, -, rfl⟩ := List.mem_map.mp hx
    exact Int.ofNat_nonneg _
  have hsum_le : ∀ x ∈ init_counts cfg, x ≤ (cfg.starshipCapacity : Int) := by
    intro x hx
    exact le_trans (List.single_le_sum hnonneg x hx) h2
  have hm : init_counts cfg ∈ moveFacts cfg :=
    ((moveFacts_characterisation cfg hcap).1 (init_counts cfg)).mpr
      ⟨length_init_counts cfg, fun x hx => ⟨hnonneg x hx, hsum_le x hx⟩, h1, h2⟩
  have happ : apply_move_subtract (init_counts cfg) (init_counts cfg) =
      some (List.replicate cfg.species.length 0) := by
    refine (apply_move_subtract_eq_some _ _ _).mpr ⟨rfl, ?_, ?_⟩
    · rw [← length_init_counts]
      generalize init_counts cfg = l
      induction l with
      | nil => rfl
      | cons x l ih =>
        rw [List.length_cons, List.replicate_succ, List.zipWith_cons_cons, sub_self, ih]
    · intro z hz
      exact le_of_eq (List.eq_of_mem_replicate hz).symm
  have hsafe : safe cfg ⟨List.replicate cfg.species.length 0, Side.target⟩ = true := by
    unfold safe
    rw [h0]
    rfl
  unfold solve_solution
  refine path.step ?_ ?_ (path.done rfl)
  · rw [show initial_state cfg = (⟨init_counts cfg, Side.start⟩ : PState) from rfl,
      show final_state cfg = (⟨List.replicate cfg.species.length 0, Side.target⟩ : PState)
        from rfl]
    exact transition_with_move.subtract hm happ hsafe
  · intro hmem
    have heq := List.mem_singleton.mp hmem
    have hside : Side.target = Side.start := congrArg PState.side heq
    cases hside

/-- Witness for `solve_one_step_solution` at the cats/dogs config. -/
theorem solve_one_step_solution_witness :
    (catsDogsConfig.relationships = [] ∧ 1 ≤ (init_counts catsDogsConfig).sum ∧
      (init_counts catsDogsConfig).sum ≤ (catsDogsConfig.starshipCapacity : Int)) ∧
    solve_solution catsDogsConfig
      [⟨init_counts catsDogsConfig, initial_state catsDogsConfig,
        final_state catsDogsConfig⟩] :=
  ⟨⟨rfl, by decide, by decide⟩,
    solve_one_step_solution catsDogsConfig rfl (by decide) (by decide)⟩

/-! ## Claim C10 -/

theorem noSolutions_of_unsafe_initial (cfg : PuzzleConfig)
    (h : safe cfg (initial_state cfg) = false) :
    (∀ sol : List SolStep, ¬ solve_solution cfg sol) ∧
    (∀ lines : List JStr, checkUserSolution cfg lines ≠ Except.ok true) := by
  have hfin : safe cfg (final_state cfg) = false :=
    (safe_final_eq_safe_initial cfg).trans h
  constructor
  · intro sol hsol
    unfold solve_solution at hsol
    rcases path_final_safe hsol with ⟨heq, -⟩ | hsafe
    · have hside : Side.start = Side.target := congrArg PState.side heq
      cases hside
    · rw [hfin] at hsafe
      cases hsafe
  · intro lines hck
    unfold checkUserSolution at hck
    cases hp : parseSolutionLines cfg lines with
    | error e =>
      rw [hp] at hck
      cases hck
    | ok steps =>
      rw [hp] at hck
      have hck2 : check_solution cfg steps (initial_state cfg) = true := by
        injection hck
      rcases check_solution_final_safe hck2 with ⟨heq, -⟩ | hsafe
      · have hside : Side.start = Side.target := congrArg PState.side heq
        cases hside
      · rw [hfin] at hsafe
        cases hsafe

/-- C10 counterexample: a config whose initial all-at-start state violates
the safety relationships; contrary to the claim, `solve` can never yield a
solution for it and `verify` can never return `true` — the final state's
safety coincides with the initial state's, and the last transition of any
successful run must produce a safe final state. -/
theorem unsafe_initial_counterexample :
    safe unsafeInitConfig (initial_state unsafeInitConfig) = false ∧
    (∀ sol : List SolStep, ¬ solve_solution unsafeInitConfig sol) ∧
    (∀ lines : List JStr, checkUserSolution unsafeInitConfig lines ≠ Except.ok true) :=
  ⟨rfl, (noSolutions_of_unsafe_initial unsafeInitConfig rfl).1,
    (noSolutions_of_unsafe_initial unsafeInitConfig rfl).2⟩

/-- C10 (amended): `path` and `check_solution` require safety only of each
post-transition state and never evaluate `safe` on the initial state; but
since the compiled safety of the final state equals that of the initial
state, a config whose initial state violates the safety relationships
admits no `solve` solutions, and `verify` never returns `true` on it. -/
theorem safety_only_after_transitions (cfg : PuzzleConfig)
    (h : safe cfg (initial_state cfg) = false) :
    safe cfg (final_state cfg) = safe cfg (initial_state cfg) ∧
    (∀ sol : List SolStep, ¬ solve_solution cfg sol) ∧
    (∀ lines : List JStr, checkUserSolution cfg lines ≠ Except.ok true) :=
  ⟨safe_final_eq_safe_initial cfg, (noSolutions_of_unsafe_initial cfg h).1,
    (noSolutions_of_unsafe_initial cfg h).2⟩

/-- Witness for `safety_only_after_transitions` at the concrete
predator-heavy config. -/
theorem safety_only_after_transitions_witness :
    safe unsafeInitConfig (initial_state unsafeInitConfig) = false ∧
    (safe unsafeInitConfig (final_state unsafeInitConfig) =
        safe unsafeInitConfig (initial_state unsafeInitConfig) ∧
      (∀ sol : List SolStep, ¬ solve_solution unsafeInitConfig sol) ∧
      (∀ lines : List JStr,
        checkUserSolution unsafeInitConfig lines ≠ Except.ok true)) :=
  ⟨by decide, safety_only_after_transitions unsafeInitConfig (by decide)⟩

/-! ## Claim C9 -/

/-- C9: unlike the `path` search predicate, `check_solution` imposes no
visited-state constraint.  For the one-species config, the three-step
candidate left-right-left revisits the initial state after its second
step — the same move list is rejected by `path` — yet each step is a
legal safe transition, the run ends exactly at the final state, and
`checkUserSolution` returns `true` on its textual encoding. -/
theorem check_solution_allows_revisits :
    transition_with_move oneSpeciesConfig (initial_state oneSpeciesConfig) [1]
      (final_state oneSpeciesConfig) ∧
    transition_with_move oneSpeciesConfig (final_state oneSpeciesConfig) [1]
      (initial_state oneSpeciesConfig) ∧
    checkUserSolution oneSpeciesConfig
      [("1 aaaaa cross left -> right").toList,
       ("1 aaaaa cross right -> left").toList,
       ("1 aaaaa cross left -> right").toList] = Except.ok true ∧
    ¬ path oneSpeciesConfig (initial_state oneSpeciesConfig)
        [initial_state oneSpeciesConfig]
        [⟨[1], initial_state oneSpeciesConfig, final_state oneSpeciesConfig⟩,
         ⟨[1], final_state oneSpeciesConfig, initial_state oneSpeciesConfig⟩,
         ⟨[1], initial_state oneSpeciesConfig, final_state oneSpeciesConfig⟩] := by
  refine ⟨?_, ?_, rfl, ?_⟩
  · rw [show initial_state oneSpeciesConfig = (⟨[1], Side.start⟩ : PState) from rfl,
      show final_state oneSpeciesConfig = (⟨[0], Side.target⟩ : PState) from rfl]
    exact transition_with_move.subtract (by decide) (by decide) (by decide)
  · rw [show initial_state oneSpeciesConfig = (⟨[1], Side.start⟩ : PState) from rfl,
      show final_state oneSpeciesConfig = (⟨[0], Side.target⟩ : PState) from rfl]
    exact transition_with_move.add (by decide) (by decide) (by decide)
  · intro h
    cases h with
    | step ht1 hnv1 h1 =>
      cases h1 with
      | step ht2 hnv2 h2 =>
        exact hnv2 (by decide)

/-! ## Character-class lemmas -/

theorem isDigit_not_whitespace {c : Char} (h : c.isDigit = true) :
    c.isWhitespace = false := by
  cases hw : c.isWhitespace
  · rfl
  · exfalso
    simp [Char.isWhitespace] at hw
    rcases hw with ((rfl | rfl) | rfl) | rfl <;> exact absurd h (by decide)

theorem isNameChar_not_whitespace {c : Char} (h : isNameChar c = true) :
    c.isWhitespace = false := by
  cases hw : c.isWhitespace
  · rfl
  · exfalso
    unfold isNameChar at h
    simp [Char.isWhitespace] at hw
    rcases hw with ((rfl | rfl) | rfl) | rfl <;> exact absurd h (by decide)

theorem isNameChar_ne_comma {c : Char} (h : isNameChar c = true) : c ≠ ',' := by
  rintro rfl
  exact absurd h (by decide)

theorem isDigit_ne_comma {c : Char} (h : c.isDigit = true) : c ≠ ',' := by
  rintro rfl
  exact absurd h (by decide)

theorem not_whitespace_ne_space {c : Char} (h : c.isWhitespace = false) : c ≠ ' ' := by
  rintro rfl
  exact absurd h (by decide)

/-! ## Lemmas about the split model -/

theorem jsSplitA_skip (sep : JStr) : ∀ (a b : JStr) (k : Nat), a.length ≤ k →
    jsSplitA sep (a ++ b) k = jsSplitA sep b (k - a.length) := by
  intro a
  induction a with
  | nil =>
    intro b k _
    simp
  | cons c a ih =>
    intro b k hk
    cases k with
    | zero => simp at hk
    | succ k =>
      show jsSplitA sep (c :: (a ++ b)) (k + 1) = _
      rw [show jsSplitA sep (c :: (a ++ b)) (k + 1) = jsSplitA sep (a ++ b) k from rfl,
        ih b k (by simpa using hk)]
      congr 1
      simp [Nat.succ_sub_succ]

theorem jsSplitA_no_occurrence (sep : JStr) (_hsep : sep ≠ []) :
    ∀ (xs : JStr), (∀ k, k < xs.length → sep.isPrefixOf (xs.drop k) = false) →
      jsSplitA sep xs 0 = [xs] := by
  intro xs
  induction xs with
  | nil => intro _; rfl
  | cons c rest ih =>
    intro h
    have h0 : sep.isPrefixOf (c :: rest) = false := by
      have := h 0 (by simp)
      simpa using this
    show jsSplitA sep (c :: rest) 0 = [c :: rest]
    rw [jsSplitA]
    rw [if_neg (by simp [h0])]
    rw [ih fun k hk => by simpa using h (k + 1) (by simpa using hk)]
    rfl

theorem jsSplitA_append_sep (sep : JStr) (hsep : sep ≠ []) :
    ∀ (l r : JStr),
      (∀ k, k < l.length → sep.isPrefixOf ((l ++ sep ++ r).drop k) = false) →
      jsSplitA sep (l ++ sep ++ r) 0 = l :: jsSplitA sep r 0 := by
  intro l
  induction l with
  | nil =>
    intro r _
    cases sep with
    | nil => exact absurd rfl hsep
    | cons s sep2 =>
      show jsSplitA (s :: sep2) (s :: (sep2 ++ r)) 0 = [] :: jsSplitA (s :: sep2) r 0
      rw [jsSplitA]
      rw [if_pos ⟨List.isPrefixOf_iff_prefix.mpr (by exact List.prefix_append _ _),
        by simp⟩]
      congr 1
      have := jsSplitA_skip (s :: sep2) sep2 r sep2.length le_rfl
      simpa using this
  | cons c l ih =>
    intro r h
    have h0 : sep.isPrefixOf (c :: (l ++ sep ++ r)) = false := by
      have := h 0 (by simp)
      simpa using this
    show jsSplitA sep (c :: (l ++ sep ++ r)) 0 = (c :: l) :: jsSplitA sep r 0
    rw [jsSplitA]
    have hcond : ¬ (sep.isPrefixOf (c :: (l ++ sep ++ r)) = true ∧ sep ≠ []) := by
      rintro ⟨hp, -⟩
      rw [h0] at hp
      cases hp
    rw [if_neg hcond]
    rw [ih r fun k hk => by simpa using h (k + 1) (by simpa using hk)]
    rfl

theorem comma_free_no_occurrence {x : JStr} (hx : ∀ a ∈ x, a ≠ ',') :
    ∀ (b : JStr) (k : Nat), k < x.length →
      ([','].isPrefixOf ((x ++ b).drop k)) = false := by
  intro b k hk
  rw [List.drop_append_of_le_length (le_of_lt hk), List.drop_eq_getElem_cons hk]
  have hne : x[k] ≠ ',' := fun h => hx x[k] (List.getElem_mem hk) h
  simp [List.isPrefixOf]
  exact fun h => absurd h.symm hne

theorem jsSplit_comma_join : ∀ (segs : List JStr) (x : JStr),
    (∀ a ∈ x, a ≠ ',') → (∀ s ∈ segs, ∀ a ∈ s, a ≠ ',') →
    jsSplit [','] (joinWith (", ").toList (x :: segs)) =
      x :: segs.map (fun s => ' ' :: s) := by
  intro segs
  induction segs with
  | nil =>
    intro x hx _
    show jsSplitA [','] (joinWith (", ").toList [x]) 0 = [x]
    rw [show joinWith (", ").toList [x] = x from rfl]
    refine jsSplitA_no_occurrence [','] (by simp) x ?_
    intro k hk
    have := comma_free_no_occurrence hx [] k hk
    simpa using this
  | cons y rest ih =>
    intro x hx hsegs
    show jsSplitA [','] (joinWith (", ").toList (x :: y :: rest)) 0 = _
    rw [show joinWith (", ").toList (x :: y :: rest) =
      x ++ [','] ++ (' ' :: joinWith (", ").toList (y :: rest)) by
        show x ++ (", ").toList ++ joinWith (", ").toList (y :: rest) = _
        simp]
    rw [jsSplitA_append_sep [','] (by simp) x
      (' ' :: joinWith (", ").toList (y :: rest))
      (fun k hk => by
        have := comma_free_no_occurrence hx
          ([','] ++ (' ' :: joinWith (", ").toList (y :: rest))) k hk
        simpa using this)]
    have hstep : jsSplitA [','] (' ' :: joinWith (", ").toList (y :: rest)) 0 =
        (jsSplitA [','] (joinWith (", ").toList (y :: rest)) 0).modifyHead
          (fun t => ' ' :: t) := by
      rw [jsSplitA]
      rw [if_neg (by simp [List.isPrefixOf])]
    rw [hstep,
      show jsSplitA [','] (joinWith (", ").toList (y :: rest)) 0 =
        jsSplit [','] (joinWith (", ").toList (y :: rest)) from rfl,
      ih y (hsegs y (List.mem_cons_self _ _))
        fun s hs => hsegs s (List.mem_cons_of_mem _ hs)]
    rfl

theorem jsTrim_eq_self_of_ends {x : JStr}
    (h1 : ∀ a, x.head? = some a → a.isWhitespace = false)
    (h2 : ∀ a, x.getLast? = some a → a.isWhitespace = false) :
    jsTrim x = x := by
  unfold jsTrim
  have hd : x.dropWhile Char.isWhitespace = x := by
    cases x with
    | nil => rfl
    | cons c rest =>
      rw [List.dropWhile_cons, if_neg (by simp [h1 c rfl])]
  rw [hd]
  have hrev : x.reverse.dropWhile Char.isWhitespace = x.reverse := by
    cases hx : x.reverse with
    | nil => rfl
    | cons c rest =>
      rw [List.dropWhile_cons, if_neg ?_]
      have hlast : x.getLast? = some c := by
        rw [← List.head?_reverse, hx]
        rfl
      simp [h2 c hlast]
  rw [hrev, List.reverse_reverse]

theorem jsTrim_cons_space (x : JStr) : jsTrim (' ' :: x) = jsTrim x := by
  unfold jsTrim
  rw [List.dropWhile_cons, if_pos (by decide)]

/-! ## Decimal rendering lemmas -/

theorem decimalValue_append_digit (ds : JStr) (c : Char) :
    decimalValue (ds ++ [c]) = 10 * decimalValue ds + (c.toNat - 48) := by
  unfold decimalValue
  rw [List.foldl_append]
  rfl

theorem natToDecAux_spec : ∀ (fuel n : Nat), n ≤ fuel →
    decimalValue (natToDecAux fuel n) = n ∧
    (∀ c ∈ natToDecAux fuel n, c.isDigit = true) ∧
    (n ≠ 0 → natToDecAux fuel n ≠ []) := by
  intro fuel
  induction fuel with
  | zero =>
    intro n hn
    have : n = 0 := by omega
    subst this
    exact ⟨rfl, by simp [natToDecAux], fun h => absurd rfl h⟩
  | succ fuel ih =>
    intro n hn
    by_cases h0 : n = 0
    · subst h0
      exact ⟨rfl, by simp [natToDecAux], fun h => absurd rfl h⟩
    · have hrec := ih (n / 10) (by omega)
      have hd : n % 10 < 10 := Nat.mod_lt _ (by norm_num)
      have hto : (Char.ofNat (48 + n % 10)).toNat = 48 + n % 10 := by
        generalize hdd : n % 10 = d at hd
        interval_cases d <;> decide
      have hdig : (Char.ofNat (48 + n % 10)).isDigit = true := by
        generalize hdd : n % 10 = d at hd
        interval_cases d <;> decide
      have heq : natToDecAux (fuel + 1) n =
          natToDecAux fuel (n / 10) ++ [Char.ofNat (48 + n % 10)] := by
        rw [natToDecAux, if_neg h0]
      refine ⟨?_, ?_, fun _ => by simp [heq]⟩
      · rw [heq, decimalValue_append_digit, hrec.1, hto]
        omega
      · intro c hc
        rw [heq] at hc
        rcases List.mem_append.mp hc with hc2 | hc2
        · exact hrec.2.1 c hc2
        · rw [List.mem_singleton.mp hc2]
          exact hdig

theorem natToDec_spec (n : Nat) (hn : 0 < n) :
    decimalValue (natToDec n) = n ∧ (∀ c ∈ natToDec n, c.isDigit = true) ∧
      natToDec n ≠ [] := by
  unfold natToDec
  rw [if_neg (by omega)]
  obtain ⟨h1, h2, h3⟩ := natToDecAux_spec n n le_rfl
  exact ⟨h1, h2, h3 (by omega)⟩

theorem isWhitespace_not_digit {c : Char} (h : c.isWhitespace = true) :
    c.isDigit = false := by
  simp [Char.isWhitespace] at h
  rcases h with ((rfl | rfl) | rfl) | rfl <;> decide

theorem jsIndexOf_spec : ∀ (names : List JStr) (key : JStr) (i : Nat),
    jsIndexOf names key = some i ↔
      names[i]? = some key ∧ ∀ j, j < i → names[j]? ≠ some key := by
  intro names key
  induction names with
  | nil =>
    intro i
    simp [jsIndexOf]
  | cons x names ih =>
    intro i
    unfold jsIndexOf at ih ⊢
    rw [List.findIdx?_cons]
    by_cases hx : x == key
    · rw [if_pos hx]
      have hxk : x = key := by simpa using hx
      subst hxk
      constructor
      · rintro h
        injection h with h
        subst h
        exact ⟨by simp, fun j hj => by omega⟩
      · rintro ⟨h1, h2⟩
        cases i with
        | zero => rfl
        | succ i => exact absurd (by simp : (x :: names)[0]? = some x) (h2 0 (by omega))
    · rw [if_neg hx, List.findIdx?_succ]
      have hxk : x ≠ key := by simpa using hx
      cases i with
      | zero =>
        simp only [Option.map_eq_some']
        constructor
        · rintro ⟨i2, -, h⟩
          omega
        · rintro ⟨h1, -⟩
          have : x = key := by simpa using h1
          exact absurd this hxk
      | succ i =>
        simp only [Option.map_eq_some']
        constructor
        · rintro ⟨i2, hi2, hh⟩
          have hii : i2 = i := by omega
          rw [hii] at hi2
          obtain ⟨h1, h2⟩ := (ih i).mp hi2
          refine ⟨by simpa using h1, ?_⟩
          intro j hj
          cases j with
          | zero =>
            intro hc
            exact hxk (by simpa using hc)
          | succ j =>
            have := h2 j (by omega)
            simpa using this
        · rintro ⟨h1, h2⟩
          refine ⟨i, (ih i).mpr ⟨by simpa using h1, ?_⟩, rfl⟩
          intro j hj
          have := h2 (j + 1) (by omega)
          simpa using this

theorem jsIndexOf_getElem? {names : List JStr} {key : JStr} {i : Nat}
    (h : jsIndexOf names key = some i) : names[i]? = some key :=
  ((jsIndexOf_spec names key i).mp h).1

theorem jsIndexOf_isSome_of_mem {names : List JStr} {key : JStr}
    (h : key ∈ names) : jsIndexOf names key ≠ none := by
  intro hc
  have h2 : (jsIndexOf names key).isSome = names.any fun nm => nm == key :=
    List.findIdx?_isSome
  rw [hc] at h2
  have h3 : names.any (fun nm => nm == key) = true :=
    List.any_eq_true.mpr ⟨key, h, by simp⟩
  rw [h3] at h2
  cases h2

theorem jsIndexOf_of_nodup {names : List JStr} (hnd : names.Nodup)
    {key : JStr} {i : Nat} (h : names[i]? = some key) :
    jsIndexOf names key = some i := by
  cases hfind : jsIndexOf names key with
  | none =>
    have hmem : key ∈ names := by
      have hi : i < names.length := by
        by_contra hc
        rw [List.getElem?_eq_none_iff.mpr (by omega)] at h
        cases h
      have := List.getElem?_eq_getElem hi
      rw [this] at h
      injection h with h
      exact h ▸ List.getElem_mem hi
    exact absurd hfind (jsIndexOf_isSome_of_mem hmem)
  | some i2 =>
    obtain ⟨h1, h2⟩ := (jsIndexOf_spec names key i2).mp hfind
    by_cases hii : i = i2
    · rw [hii]
    · exfalso
      have hi : i < names.length := by
        by_contra hc
        rw [List.getElem?_eq_none_iff.mpr (by omega)] at h
        cases h
      have hi2 : i2 < names.length := by
        by_contra hc
        rw [List.getElem?_eq_none_iff.mpr (by omega)] at h1
        cases h1
      have hv : names[i] = names[i2] := by
        have ha := List.getElem?_eq_getElem hi
        have hb := List.getElem?_eq_getElem hi2
        rw [ha] at h
        rw [hb] at h1
        injection h with h
        injection h1 with h1
        rw [h, h1]
      have := (hnd.getElem_inj_iff).mp hv
      exact hii this

theorem matchSegment_encode {ds nm : JStr} (hds : ds ≠ [])
    (hdig : ∀ c ∈ ds, c.isDigit = true) (hnm : nm ≠ [])
    (hnw : ∀ c ∈ nm, c.isWhitespace = false) :
    matchSegment (ds ++ ' ' :: nm) = some (decimalValue ds, nm) := by
  unfold matchSegment
  have hself : ds.takeWhile Char.isDigit = ds := List.takeWhile_eq_self_iff.mpr hdig
  have ht : (ds ++ ' ' :: nm).takeWhile Char.isDigit = ds := by
    rw [List.takeWhile_append, hself, if_pos rfl, List.takeWhile_cons,
      if_neg (by decide)]
    simp
  have hdrop : (ds ++ ' ' :: nm).dropWhile Char.isDigit = ' ' :: nm := by
    rw [List.dropWhile_append, if_pos (by simp [List.dropWhile_eq_nil_iff.mpr hdig]),
      List.dropWhile_cons, if_neg (by decide)]
  have htws : (' ' :: nm).takeWhile Char.isWhitespace = [' '] := by
    rw [List.takeWhile_cons, if_pos (by decide)]
    cases nm with
    | nil => rfl
    | cons c rest =>
      rw [List.takeWhile_cons, if_neg (by simp [hnw c (List.mem_cons_self _ _)])]
  have hdws : (' ' :: nm).dropWhile Char.isWhitespace = nm := by
    rw [List.dropWhile_cons, if_pos (by decide)]
    cases nm with
    | nil => rfl
    | cons c rest =>
      rw [List.dropWhile_cons, if_neg (by simp [hnw c (List.mem_cons_self _ _)])]
  simp only [ht, hdrop, htws, hdws]
  rw [if_pos]
  refine ⟨hds, by simp, hnm, ?_⟩
  rw [List.all_eq_true]
  intro c hc
  simp [hnw c hc]

theorem matchSegment_iff_segMatchesWS {seg : JStr} {cnt : Nat} {nm : JStr} :
    matchSegment seg = some (cnt, nm) ↔ segMatchesWS seg cnt nm := by
  constructor
  · intro h
    unfold matchSegment at h
    by_cases hcond : seg.takeWhile Char.isDigit ≠ [] ∧
        (seg.dropWhile Char.isDigit).takeWhile Char.isWhitespace ≠ [] ∧
        (seg.dropWhile Char.isDigit).dropWhile Char.isWhitespace ≠ [] ∧
        ((seg.dropWhile Char.isDigit).dropWhile Char.isWhitespace).all
          (fun c => ! c.isWhitespace) = true
    · rw [if_pos hcond] at h
      injection h with h
      obtain ⟨hds, hws, hnm2, hall⟩ := hcond
      have hpair : decimalValue (seg.takeWhile Char.isDigit) = cnt ∧
          (seg.dropWhile Char.isDigit).dropWhile Char.isWhitespace = nm := by
        constructor
        · exact congrArg Prod.fst h
        · exact congrArg Prod.snd h
      refine ⟨seg.takeWhile Char.isDigit,
        (seg.dropWhile Char.isDigit).takeWhile Char.isWhitespace, ?_, hds,
        fun c hc => List.mem_takeWhile_imp hc, hws,
        fun c hc => List.mem_takeWhile_imp hc, ?_, ?_, hpair.1.symm⟩
      · rw [hpair.2.symm, List.append_assoc, List.takeWhile_append_dropWhile,
          List.takeWhile_append_dropWhile]
      · rw [← hpair.2]
        exact hnm2
      · intro c hc
        rw [← hpair.2] at hc
        have := List.all_eq_true.mp hall c hc
        simpa using this
    · rw [if_neg hcond] at h
      cases h
  · rintro ⟨ds, ws, rfl, hds, hdig, hws, hwsp, hnm, hnw, rfl⟩
    have hw0 : ∃ w ws2, ws = w :: ws2 := by
      cases ws with
      | nil => exact absurd rfl hws
      | cons w ws2 => exact ⟨w, ws2, rfl⟩
    obtain ⟨w, ws2, rfl⟩ := hw0
    have hn0 : ∃ n0 nm2, nm = n0 :: nm2 := by
      cases nm with
      | nil => exact absurd rfl hnm
      | cons n0 nm2 => exact ⟨n0, nm2, rfl⟩
    obtain ⟨n0, nm2, rfl⟩ := hn0
    have hwd : w.isDigit = false :=
      isWhitespace_not_digit (hwsp w (List.mem_cons_self _ _))
    have ht : ((ds ++ (w :: ws2) ++ (n0 :: nm2)).takeWhile Char.isDigit) = ds := by
      rw [List.append_assoc, List.takeWhile_append,
        List.takeWhile_eq_self_iff.mpr hdig, if_pos rfl, List.cons_append,
        List.takeWhile_cons, if_neg (by simp [hwd])]
      simp
    have hdrop : ((ds ++ (w :: ws2) ++ (n0 :: nm2)).dropWhile Char.isDigit) =
        (w :: ws2) ++ (n0 :: nm2) := by
      rw [List.append_assoc, List.dropWhile_append,
        if_pos (by simp [List.dropWhile_eq_nil_iff.mpr hdig]), List.cons_append,
        List.dropWhile_cons, if_neg (by simp [hwd])]
    have htws : (((w :: ws2) ++ (n0 :: nm2)).takeWhile Char.isWhitespace) =
        w :: ws2 := by
      rw [List.takeWhile_append,
        List.takeWhile_eq_self_iff.mpr (fun c hc => hwsp c hc), if_pos rfl,
        List.takeWhile_cons, if_neg (by simp [hnw n0 (List.mem_cons_self _ _)])]
      simp
    have hdws : (((w :: ws2) ++ (n0 :: nm2)).dropWhile Char.isWhitespace) =
        n0 :: nm2 := by
      rw [List.dropWhile_append,
        if_pos (by simp [List.dropWhile_eq_nil_iff.mpr (fun c hc => hwsp c hc)]),
        List.dropWhile_cons, if_neg (by simp [hnw n0 (List.mem_cons_self _ _)])]
    unfold matchSegment
    simp only [ht, hdrop, htws, hdws]
    rw [if_pos]
    refine ⟨hds, by simp, by simp, ?_⟩
    rw [List.all_eq_true]
    intro c hc
    simp [hnw c hc]

theorem segSum_cons (cnt : Nat) (nm : JStr) (pairs : List (Nat × JStr)) (x : JStr) :
    segSum ((cnt, nm) :: pairs) x =
      (if nm = x then (cnt : Int) else 0) + segSum pairs x := by
  unfold segSum
  rw [List.filter_cons]
  by_cases h : nm = x
  · rw [if_pos (by simpa using h), if_pos h]
    simp
  · rw [if_neg (by simpa using h), if_neg h]
    simp

theorem getElem?_lt_length {α : Type} {l : List α} {i : Nat} {a : α}
    (h : l[i]? = some a) : i < l.length := by
  by_contra hc
  rw [List.getElem?_eq_none_iff.mpr (by omega)] at h
  cases h

theorem acc_set_getD_segSum {names : List JStr} (hnd : names.Nodup)
    {acc : List Int} (hacc : acc.length = names.length)
    {cnt : Nat} {nm : JStr} {idx : Nat} (hidx : jsIndexOf names nm = some idx)
    (pairs2 : List (Nat × JStr)) {i : Nat} {nmi : JStr}
    (hi : names[i]? = some nmi) :
    (acc.set idx (acc.getD idx 0 + (cnt : Int))).getD i 0 + segSum pairs2 nmi =
      acc.getD i 0 + segSum ((cnt, nm) :: pairs2) nmi := by
  have hidxname := jsIndexOf_getElem? hidx
  have hidxlt : idx < names.length := getElem?_lt_length hidxname
  rw [segSum_cons]
  by_cases heq : idx = i
  · subst heq
    have hnmi : nm = nmi := by
      rw [hi] at hidxname
      injection hidxname with h
      exact h.symm
    rw [if_pos hnmi]
    have hset : (acc.set idx (acc.getD idx 0 + (cnt : Int))).getD idx 0 =
        acc.getD idx 0 + (cnt : Int) := by
      rw [List.getD_eq_getElem?_getD, List.getElem?_set, if_pos rfl,
        if_pos (by omega)]
      rfl
    rw [hset]
    ring
  · have hne : nm ≠ nmi := by
      intro hcc
      subst hcc
      have h2 := jsIndexOf_of_nodup hnd hi
      rw [hidx] at h2
      injection h2 with h2
      exact heq h2
    rw [if_neg hne]
    have hset : (acc.set idx (acc.getD idx 0 + (cnt : Int))).getD i 0 =
        acc.getD i 0 := by
      rw [List.getD_eq_getElem?_getD, List.getElem?_set, if_neg heq,
        ← List.getD_eq_getElem?_getD]
    rw [hset]
    ring

theorem parseSegments_ok_iff {names : List JStr} (hnd : names.Nodup) (line : JStr) :
    ∀ (segs : List JStr) (acc amounts : List Int), acc.length = names.length →
    (parseSegments names line segs acc = .ok amounts ↔
      ∃ pairs : List (Nat × JStr),
        List.Forall₂ (fun seg p => matchSegment (jsTrim seg) = some p) segs pairs ∧
        (∀ p ∈ pairs, p.2 ∈ names) ∧
        amounts.length = names.length ∧
        ∀ (i : Nat) (nmi : JStr), names[i]? = some nmi →
          amounts[i]? = some (acc.getD i 0 + segSum pairs nmi)) := by
  intro segs
  induction segs with
  | nil =>
    intro acc amounts hacc
    show (Except.ok acc = Except.ok amounts ↔ _)
    constructor
    · intro h
      injection h with h
      subst h
      refine ⟨[], List.Forall₂.nil, by simp, hacc, ?_⟩
      intro i nmi hi
      have hilt : i < acc.length := hacc ▸ getElem?_lt_length hi
      rw [List.getElem?_eq_getElem hilt, List.getD_eq_getElem?_getD,
        List.getElem?_eq_getElem hilt]
      show _ = some (acc[i] + segSum [] nmi)
      simp [segSum]
    · rintro ⟨pairs, hf, -, hlen, hpt⟩
      rw [List.forall₂_nil_left_iff.mp hf] at hpt
      have hamounts : amounts = acc := by
        refine List.ext_getElem? ?_
        intro n
        by_cases hn : n < names.length
        · have hnames : names[n]? = some names[n] :=
            List.getElem?_eq_getElem hn
          rw [hpt n names[n] hnames, List.getD_eq_getElem?_getD,
            List.getElem?_eq_getElem (show n < acc.length by omega)]
          simp [segSum, List.getElem?_eq_getElem (show n < acc.length by omega)]
        · rw [List.getElem?_eq_none_iff.mpr (by omega),
            List.getElem?_eq_none_iff.mpr (by omega)]
      rw [hamounts]
  | cons seg rest ih =>
    intro acc amounts hacc
    cases hm : matchSegment (jsTrim seg) with
    | none =>
      simp only [parseSegments, hm]
      constructor
      · intro h
        cases h
      · rintro ⟨pairs, hf, -, -, -⟩
        obtain ⟨p, pairs2, hp, -, rfl⟩ := List.forall₂_cons_left_iff.mp hf
        rw [hm] at hp
        cases hp
    | some cn =>
      cases hidx : jsIndexOf names cn.2 with
      | none =>
        simp only [parseSegments, hm, hidx]
        constructor
        · intro h
          cases h
        · rintro ⟨pairs, hf, hmem, -, -⟩
          obtain ⟨p, pairs2, hp, -, rfl⟩ := List.forall₂_cons_left_iff.mp hf
          rw [hm] at hp
          injection hp with hp
          subst hp
          exact absurd hidx
            (jsIndexOf_isSome_of_mem (hmem cn (List.mem_cons_self _ _)))
      | some idx =>
        simp only [parseSegments, hm, hidx]
        rw [ih (acc.set idx (acc.getD idx 0 + (cn.1 : Int))) amounts
          (by rw [List.length_set]; exact hacc)]
        constructor
        · rintro ⟨pairs2, hf2, hmem2, hlen2, hpt2⟩
          refine ⟨(cn.1, cn.2) :: pairs2, ?_, ?_, hlen2, ?_⟩
          · exact List.Forall₂.cons (by simpa using hm) hf2
          · intro p hp
            rcases List.mem_cons.mp hp with rfl | hp2
            · have h2 := jsIndexOf_getElem? hidx
              have hlt := getElem?_lt_length h2
              have h3 : names[idx] = cn.2 := by
                rw [List.getElem?_eq_getElem hlt] at h2
                injection h2
              exact h3 ▸ List.getElem_mem hlt
            · exact hmem2 p hp2
          · intro i nmi hi
            rw [hpt2 i nmi hi,
              acc_set_getD_segSum hnd hacc hidx pairs2 hi]
        · rintro ⟨pairs, hf, hmem, hlen, hpt⟩
          obtain ⟨p, pairs2, hp, hf2, rfl⟩ := List.forall₂_cons_left_iff.mp hf
          rw [hm] at hp
          injection hp with hp
          subst hp
          refine ⟨pairs2, hf2, fun q hq => hmem q (List.mem_cons_of_mem _ hq),
            hlen, ?_⟩
          intro i nmi hi
          rw [acc_set_getD_segSum hnd hacc hidx pairs2 hi,
            show ((cn.1, cn.2) : Nat × JStr) = cn from rfl]
          exact hpt i nmi hi

theorem jsSplitA_ne_nil (sep : JStr) : ∀ (xs : JStr) (k : Nat),
    jsSplitA sep xs k ≠ [] := by
  intro xs
  induction xs with
  | nil => intro k; simp [jsSplitA]
  | cons c rest ih =>
    intro k
    cases k with
    | succ k => exact ih k
    | zero =>
      rw [jsSplitA]
      by_cases h : sep.isPrefixOf (c :: rest) = true ∧ sep ≠ []
      · rw [if_pos h]
        simp
      · rw [if_neg h]
        have := ih 0
        cases hres : jsSplitA sep rest 0 with
        | nil => exact absurd hres this
        | cons a l => simp [hres, List.modifyHead]

theorem getElem?_zero_headD {parts : List JStr} (h : parts ≠ []) :
    parts[0]? = some (parts.headD []) := by
  cases parts with
  | nil => exact absurd rfl h
  | cons p ps => simp

theorem forall₂_match_iff (segs : List JStr) (pairs : List (Nat × JStr)) :
    List.Forall₂ (fun seg p => matchSegment (jsTrim seg) = some p) segs pairs ↔
      List.Forall₂ (fun seg p => segMatchesWS (jsTrim seg) p.1 p.2) segs pairs := by
  constructor <;> intro h <;> refine h.imp ?_ <;> intro a b hab
  · exact matchSegment_iff_segMatchesWS.mp hab
  · exact matchSegment_iff_segMatchesWS.mpr hab

theorem replicate_getD_zero (n i : Nat) :
    (List.replicate n (0 : Int)).getD i 0 = 0 := by
  rw [List.getD_eq_getElem?_getD, List.getElem?_replicate]
  by_cases h : i < n
  · rw [if_pos h]
    rfl
  · rw [if_neg h]
    rfl

theorem parseSegments_spec {names : List JStr} (hnd : names.Nodup) (line : JStr)
    (segs : List JStr) (amounts : List Int) :
    parseSegments names line segs (List.replicate names.length 0) =
        .ok amounts ↔
      ∃ pairs : List (Nat × JStr),
        List.Forall₂ (fun seg p => segMatchesWS (jsTrim seg) p.1 p.2) segs pairs ∧
        (∀ p ∈ pairs, p.2 ∈ names) ∧
        amounts.length = names.length ∧
        ∀ (i : Nat) (nmi : JStr), names[i]? = some nmi →
          amounts[i]? = some (segSum pairs nmi) := by
  rw [parseSegments_ok_iff hnd line segs (List.replicate names.length 0) amounts
    (by simp)]
  constructor <;> rintro ⟨pairs, hf, hmem, hlen, hpt⟩
  · refine ⟨pairs, (forall₂_match_iff segs pairs).mp hf, hmem, hlen, ?_⟩
    intro i nmi hi
    have := hpt i nmi hi
    rwa [replicate_getD_zero, zero_add] at this
  · refine ⟨pairs, (forall₂_match_iff segs pairs).mpr hf, hmem, hlen, ?_⟩
    intro i nmi hi
    rw [replicate_getD_zero, zero_add]
    exact hpt i nmi hi

theorem parseAmounts_spec {names : List JStr} (hnd : names.Nodup) (line : JStr)
    (d : Direction) (st : Step) :
    (parseAmounts names line d).toOption = some st ↔
      (st.direction = d ∧
        ∃ pairs : List (Nat × JStr),
          List.Forall₂ (fun seg p => segMatchesWS (jsTrim seg) p.1 p.2)
            (jsSplit [','] ((jsSplit (" cross ").toList line).headD [])) pairs ∧
          (∀ p ∈ pairs, p.2 ∈ names) ∧
          st.amounts.length = names.length ∧
          ∀ (i : Nat) (nmi : JStr), names[i]? = some nmi →
            st.amounts[i]? = some (segSum pairs nmi)) := by
  unfold parseAmounts
  cases hseg : parseSegments names line
      (jsSplit [','] ((jsSplit (" cross ").toList line).headD []))
      (List.replicate names.length 0) with
  | error e =>
    show ((Except.error e : Except ParseError Step).toOption = some st) ↔ _
    constructor
    · intro h
      cases h
    · rintro ⟨hd, pairs, hf, hmem, hlen, hpt⟩
      have := (parseSegments_spec hnd line _ st.amounts).mpr ⟨pairs, hf, hmem, hlen, hpt⟩
      rw [hseg] at this
      cases this
  | ok amounts =>
    show ((Except.ok (⟨amounts, d⟩ : Step)).toOption = some st) ↔ _
    have hchar := (parseSegments_spec hnd line _ amounts).mp hseg
    constructor
    · intro h
      injection h with h
      subst h
      obtain ⟨pairs, hf, hmem, hlen, hpt⟩ := hchar
      exact ⟨rfl, pairs, hf, hmem, hlen, hpt⟩
    · rintro ⟨hd, pairs, hf, hmem, hlen, hpt⟩
      have := (parseSegments_spec hnd line _ st.amounts).mpr ⟨pairs, hf, hmem, hlen, hpt⟩
      rw [hseg] at this
      injection this with this
      obtain ⟨sa, sd⟩ := st
      simp only at hd
      simp only at this
      rw [hd, this]
      rfl

/-- C6 (amended): decoding a single step line splits it on the literal
substring `" cross "`; it succeeds only if the part after the first
separator trims to exactly `"left -> right"` (direction start-to-target)
or `"right -> left"` (direction target-to-start); the part before it is
split on commas into segments, each of which must trim to
`"<integer> <name>"` with a separator of one or more whitespace
characters (the `\s+` of the implemented regex, not a single space); any
unknown species name or malformed segment makes decoding fail; and
segments naming the same species accumulate additively, each species'
amount being the sum of the counts of the segments naming it. -/
theorem parseSolutionLine_spec (names : List JStr) (hnd : names.Nodup)
    (line : JStr) (st : Step) :
    (parseSolutionLine names line).toOption = some st ↔
      specDecodesTo segMatchesWS names line st := by
  unfold parseSolutionLine specDecodesTo
  cases h1 : (jsSplit (" cross ").toList line)[1]? with
  | none =>
    show ((Except.error (ParseError.missingCross line)).toOption = some st) ↔ _
    constructor
    · intro h
      cases h
    · rintro ⟨l, r, pairs, -, hr, -⟩
      cases hr
  | some rightPart =>
    show ((if rightPart = [] then Except.error (ParseError.missingCross line)
      else if jsTrim rightPart = ("left -> right").toList then
        parseAmounts names line Direction.leftToRight
      else if jsTrim rightPart = ("right -> left").toList then
        parseAmounts names line Direction.rightToLeft
      else Except.error (ParseError.invalidDirection line)).toOption = some st) ↔ _
    by_cases h2 : rightPart = []
    · subst h2
      rw [if_pos rfl]
      show ((Except.error (ParseError.missingCross line)).toOption = some st) ↔ _
      constructor
      · intro h
        cases h
      · rintro ⟨l, r, pairs, -, hr, hdir, -⟩
        injection hr with hr
        subst hr
        rcases hdir with ⟨hd, -⟩ | ⟨hd, -⟩ <;> exact absurd hd (by decide)
    · rw [if_neg h2]
      by_cases h3 : jsTrim rightPart = ("left -> right").toList
      · rw [if_pos h3, parseAmounts_spec hnd line Direction.leftToRight st]
        constructor
        · rintro ⟨hd, pairs, hf, hmem, hlen, hpt⟩
          exact ⟨(jsSplit (" cross ").toList line).headD [], rightPart, pairs,
            getElem?_zero_headD (jsSplitA_ne_nil _ _ _), rfl, Or.inl ⟨h3, hd⟩,
            hf, hmem, hlen, hpt⟩
        · rintro ⟨l, r, pairs, hl, hr, hdir, hf, hmem, hlen, hpt⟩
          injection hr with hr
          subst hr
          have hleq : l = (jsSplit (" cross ").toList line).headD [] := by
            have h5 : (jsSplit (" cross ").toList line)[0]? =
                some ((jsSplit (" cross ").toList line).headD []) :=
              getElem?_zero_headD (jsSplitA_ne_nil (" cross ").toList line 0)
            rw [hl] at h5
            injection h5
          subst hleq
          rcases hdir with ⟨-, hd⟩ | ⟨hd2, -⟩
          · exact ⟨hd, pairs, hf, hmem, hlen, hpt⟩
          · rw [h3] at hd2
            exact absurd hd2 (by decide)
      · by_cases h4 : jsTrim rightPart = ("right -> left").toList
        · rw [if_neg h3, if_pos h4,
            parseAmounts_spec hnd line Direction.rightToLeft st]
          constructor
          · rintro ⟨hd, pairs, hf, hmem, hlen, hpt⟩
            exact ⟨(jsSplit (" cross ").toList line).headD [], rightPart, pairs,
              getElem?_zero_headD (jsSplitA_ne_nil _ _ _), rfl, Or.inr ⟨h4, hd⟩,
              hf, hmem, hlen, hpt⟩
          · rintro ⟨l, r, pairs, hl, hr, hdir, hf, hmem, hlen, hpt⟩
            injection hr with hr
            subst hr
            have hleq : l = (jsSplit (" cross ").toList line).headD [] := by
              have h5 : (jsSplit (" cross ").toList line)[0]? =
                  some ((jsSplit (" cross ").toList line).headD []) :=
                getElem?_zero_headD (jsSplitA_ne_nil (" cross ").toList line 0)
              rw [hl] at h5
              injection h5
            subst hleq
            rcases hdir with ⟨hd2, -⟩ | ⟨-, hd⟩
            · exact absurd hd2 h3
            · exact ⟨hd, pairs, hf, hmem, hlen, hpt⟩
        · rw [if_neg h3, if_neg h4]
          show ((Except.error (ParseError.invalidDirection line)).toOption = some st) ↔ _
          constructor
          · intro h
            cases h
          · rintro ⟨l, r, pairs, -, hr, hdir, -⟩
            injection hr with hr
            subst hr
            rcases hdir with ⟨hd, -⟩ | ⟨hd, -⟩
            · exact absurd hd h3
            · exact absurd hd h4

/-- C6 counterexample: a line whose only segment separates the integer
from the species name by two spaces.  With the claimed single-space
grammar the segment is malformed, so decoding would have to fail; the
implementation (`\s+`) accepts the line. -/
theorem singleSpace_decode_counterexample :
    (parseSolutionLine (speciesNames catsDogsConfig)
        ("2  cats cross left -> right").toList).toOption =
      some ⟨[2, 0], Direction.leftToRight⟩ ∧
    ¬ specDecodesTo segMatchesSingle (speciesNames catsDogsConfig)
        ("2  cats cross left -> right").toList
        ⟨[2, 0], Direction.leftToRight⟩ := by
  refine ⟨rfl, ?_⟩
  rintro ⟨l, r, pairs, hl, hr, hdir, hf, hmem, hlen, hpt⟩
  rw [show (jsSplit (" cross ").toList ("2  cats cross left -> right").toList) =
    [("2  cats").toList, ("left -> right").toList] from rfl] at hl
  have hl2 : l = ("2  cats").toList := by
    simpa using hl.symm
  subst hl2
  rw [show jsSplit [','] ("2  cats").toList = [("2  cats").toList] from rfl] at hf
  obtain ⟨p, pairs2, hp, -, rfl⟩ := List.forall₂_cons_left_iff.mp hf
  rw [show jsTrim ("2  cats").toList = ("2  cats").toList from rfl] at hp
  obtain ⟨ds, hseg, hds, hdig, hnm, hnw, -⟩ := hp
  cases ds with
  | nil => exact hds rfl
  | cons d ds2 =>
    rw [show ("2  cats").toList =
      '2' :: ' ' :: ' ' :: ("cats").toList from rfl] at hseg
    rw [List.cons_append] at hseg
    injection hseg with h6 h7
    cases ds2 with
    | nil =>
      rw [List.nil_append] at h7
      injection h7 with h8 h9
      have hmemnm : ' ' ∈ p.2 := by
        rw [← h9]
        exact List.mem_cons_self _ _
      exact absurd (hnw ' ' hmemnm) (by decide)
    | cons e ds3 =>
      rw [List.cons_append] at h7
      injection h7 with h8 h9
      have hde : e ∈ d :: e :: ds3 :=
        List.mem_cons_of_mem _ (List.mem_cons_self _ _)
      have := hdig e hde
      rw [← h8] at this
      exact absurd this (by decide)

/-! ## Occurrence analysis for the literal separator -/

theorem prefix_append_elem {α : Type} {u v w : List α} {d : α}
    (h : w <+: u ++ d :: v) : w <+: u ∨ d ∈ w := by
  induction u generalizing w with
  | nil =>
    cases w with
    | nil => exact Or.inl List.nil_prefix
    | cons b w2 =>
      rcases List.cons_prefix_cons.mp h with ⟨rfl, -⟩
      exact Or.inr (List.mem_cons_self _ _)
  | cons a u2 ih =>
    cases w with
    | nil => exact Or.inl List.nil_prefix
    | cons b w2 =>
      rcases List.cons_prefix_cons.mp h with ⟨rfl, h2⟩
      rcases ih h2 with h3 | h3
      · exact Or.inl (List.cons_prefix_cons.mpr ⟨rfl, h3⟩)
      · exact Or.inr (List.mem_cons_of_mem _ h3)

theorem infix_append_elem {α : Type} {u v w : List α} {d : α}
    (h : w <:+: u ++ d :: v) : w <:+: u ∨ d ∈ w ∨ w <:+: v := by
  induction u generalizing w with
  | nil =>
    rcases List.infix_cons_iff.mp h with h2 | h2
    · cases w with
      | nil => exact Or.inl List.nil_infix
      | cons b w2 =>
        rcases List.cons_prefix_cons.mp h2 with ⟨rfl, -⟩
        exact Or.inr (Or.inl (List.mem_cons_self _ _))
    · exact Or.inr (Or.inr h2)
  | cons a u2 ih =>
    have h0 : w <:+: a :: (u2 ++ d :: v) := h
    rcases List.infix_cons_iff.mp h0 with h2 | h2
    · have h2a : w <+: (a :: u2) ++ d :: v := h2
      rcases prefix_append_elem h2a with h3 | h3
      · exact Or.inl h3.isInfix
      · exact Or.inr (Or.inl h3)
    · rcases ih h2 with h3 | h3
      · exact Or.inl (List.infix_cons_iff.mpr (Or.inr h3))
      · exact Or.inr h3

theorem count_space_of_segGood {s : JStr} (h : SegGood s) :
    List.count ' ' s = 1 := by
  obtain ⟨ds, nm, rfl, -, hdig, ⟨-, hchars⟩, -⟩ := h
  rw [List.count_append]
  have h1 : List.count ' ' ds = 0 :=
    List.count_eq_zero.mpr fun hmem => absurd (hdig ' ' hmem) (by decide)
  have h2 : List.count ' ' nm = 0 :=
    List.count_eq_zero.mpr fun hmem => absurd (hchars ' ' hmem) (by decide)
  rw [h1, List.count_cons_self, h2]

theorem not_cross_infix_seg {s : JStr} (h : SegGood s) :
    ¬ (" cross ").toList <:+: s := by
  intro hinf
  obtain ⟨a, b, hab⟩ := hinf
  have hc := congrArg (List.count ' ') hab
  rw [List.count_append, List.count_append, count_space_of_segGood h,
    show List.count ' ' ((" cross ").toList) = 2 from by decide] at hc
  omega

theorem not_cross_infix_space_seg {s : JStr} (h : SegGood s) :
    ¬ (" cross ").toList <:+: (' ' :: s) := by
  intro hinf
  obtain ⟨a, b, hab⟩ := hinf
  have hc := congrArg (List.count ' ') hab
  rw [List.count_append, List.count_append,
    show List.count ' ' ((" cross ").toList) = 2 from by decide,
    List.count_cons_self, count_space_of_segGood h] at hc
  have hca : List.count ' ' a = 0 := by omega
  cases a with
  | nil =>
    rw [List.nil_append,
      show (" cross ").toList = ' ' :: ('c' :: ("ross ").toList) from rfl,
      List.cons_append] at hab
    injection hab with heq0 hab2
    obtain ⟨ds, nm, hseq, hds, hdig, -, -⟩ := h
    rw [hseq] at hab2
    cases ds with
    | nil => exact hds rfl
    | cons d ds2 =>
      rw [List.cons_append] at hab2
      injection hab2 with hd htl0
      have := hdig d (List.mem_cons_self _ _)
      rw [← hd] at this
      exact absurd this (by decide)
  | cons c a2 =>
    rw [List.cons_append, List.cons_append] at hab
    injection hab with hc2 htl1
    rw [List.count_eq_zero] at hca
    exact hca (hc2 ▸ List.mem_cons_self _ _)

theorem not_cross_space_join : ∀ (segs : List JStr) (x : JStr), SegGood x →
    (∀ s ∈ segs, SegGood s) →
    ¬ (" cross ").toList <:+: (' ' :: joinWith (", ").toList (x :: segs)) := by
  intro segs
  induction segs with
  | nil =>
    intro x hx _
    exact not_cross_infix_space_seg hx
  | cons y rest ih =>
    intro x hx hsegs hinf
    have hshape : (' ' :: joinWith (", ").toList (x :: y :: rest)) =
        (' ' :: x) ++ ',' :: (' ' :: joinWith (", ").toList (y :: rest)) := by
      show ' ' :: (x ++ (", ").toList ++ joinWith (", ").toList (y :: rest)) = _
      simp
    rw [hshape] at hinf
    rcases infix_append_elem hinf with h1 | h2 | h3
    · exact not_cross_infix_space_seg hx h1
    · exact absurd h2 (by decide)
    · exact ih y (hsegs y (List.mem_cons_self _ _))
        (fun s hs => hsegs s (List.mem_cons_of_mem _ hs)) h3

theorem not_cross_infix_join (segs : List JStr) (x : JStr) (hx : SegGood x)
    (hsegs : ∀ s ∈ segs, SegGood s) :
    ¬ (" cross ").toList <:+: joinWith (", ").toList (x :: segs) := by
  cases segs with
  | nil => exact not_cross_infix_seg hx
  | cons y rest =>
    intro hinf
    have hshape : joinWith (", ").toList (x :: y :: rest) =
        x ++ ',' :: (' ' :: joinWith (", ").toList (y :: rest)) := by
      show x ++ (", ").toList ++ joinWith (", ").toList (y :: rest) = _
      simp
    rw [hshape] at hinf
    rcases infix_append_elem hinf with h1 | h2 | h3
    · exact not_cross_infix_seg hx h1
    · exact absurd h2 (by decide)
    · exact not_cross_space_join rest y (hsegs y (List.mem_cons_self _ _))
        (fun s hs => hsegs s (List.mem_cons_of_mem _ hs)) h3

theorem join_ends_member : ∀ (segs : List JStr) (x : JStr),
    ∃ (p last : JStr), last ∈ x :: segs ∧
      joinWith (", ").toList (x :: segs) = p ++ last := by
  intro segs
  induction segs with
  | nil =>
    intro x
    exact ⟨[], x, List.mem_cons_self _ _, (List.nil_append x).symm⟩
  | cons y rest ih =>
    intro x
    obtain ⟨p, last, hmem, hjoin⟩ := ih y
    refine ⟨x ++ (", ").toList ++ p, last, List.mem_cons_of_mem _ hmem, ?_⟩
    show x ++ (", ").toList ++ joinWith (", ").toList (y :: rest) = _
    rw [hjoin, List.append_assoc, List.append_assoc, List.append_assoc]

theorem eq_of_append_space_eq {u a v b : List Char}
    (h : u ++ ' ' :: a = v ++ ' ' :: b)
    (ha : ∀ c ∈ a, c ≠ ' ') (hb : ∀ c ∈ b, c ≠ ' ') : a = b := by
  have hsa : (' ' :: a) <:+ (u ++ ' ' :: a) := ⟨u, rfl⟩
  have hsb : (' ' :: b) <:+ (u ++ ' ' :: a) := by
    rw [h]
    exact ⟨v, rfl⟩
  rcases List.suffix_or_suffix_of_suffix hsa hsb with hs | hs
  · rcases List.suffix_cons_iff.mp hs with heq | hs2
    · exact congrArg List.tail heq
    · exact absurd rfl
        (hb ' ' (List.IsSuffix.mem (List.mem_cons_self _ _) hs2))
  · rcases List.suffix_cons_iff.mp hs with heq | hs2
    · exact (congrArg List.tail heq).symm
    · exact absurd rfl
        (ha ' ' (List.IsSuffix.mem (List.mem_cons_self _ _) hs2))

theorem not_cross_suffix_join (segs : List JStr) (x : JStr) (hx : SegGood x)
    (hsegs : ∀ s ∈ segs, SegGood s) :
    ¬ (" cross").toList <:+ joinWith (", ").toList (x :: segs) := by
  intro hsuf
  obtain ⟨p, last, hmem, hjoin⟩ := join_ends_member segs x
  have hlast : SegGood last := by
    rcases List.mem_cons.mp hmem with rfl | hm2
    · exact hx
    · exact hsegs last hm2
  obtain ⟨ds, nm, hlasteq, -, -, ⟨-, hnmchars⟩, hnmcross⟩ := hlast
  obtain ⟨q, hq⟩ := hsuf
  have he : (p ++ ds) ++ ' ' :: nm = q ++ ' ' :: ("cross").toList := by
    rw [List.append_assoc, ← hlasteq, ← hjoin, ← hq]
    rfl
  have hnm : nm = ("cross").toList := by
    refine eq_of_append_space_eq he ?_ (by decide)
    intro c hc
    exact not_whitespace_ne_space (isNameChar_not_whitespace (hnmchars c hc))
  exact hnmcross hnm

theorem cross_no_early_occurrence {l r : JStr}
    (hA : ¬ (" cross ").toList <:+: l)
    (hB : ¬ (" cross").toList <:+ l) :
    ∀ k, k < l.length →
      ((" cross ").toList).isPrefixOf ((l ++ (" cross ").toList ++ r).drop k) = false := by
  intro k hk
  cases hbb : ((" cross ").toList).isPrefixOf ((l ++ (" cross ").toList ++ r).drop k) with
  | false => rfl
  | true =>
    exfalso
    have hp0 : (" cross ").toList <+: ((l ++ (" cross ").toList ++ r).drop k) :=
      List.isPrefixOf_iff_prefix.mp hbb
    rw [List.append_assoc, List.drop_append_of_le_length (le_of_lt hk)] at hp0
    obtain ⟨t, ht⟩ := hp0
    have hslen : 1 ≤ (l.drop k).length := by
      rw [List.length_drop]
      omega
    have hsuffix : l.drop k <:+ l := List.drop_suffix k l
    by_cases h7 : 7 ≤ (l.drop k).length
    · have htk := congrArg (List.take 7) ht
      rw [List.take_append_of_le_length
          (show (7 : Nat) ≤ ((" cross ").toList).length from by decide),
        List.take_append_of_le_length h7,
        show List.take 7 ((" cross ").toList) = (" cross ").toList from by decide] at htk
      have hpre : (" cross ").toList <+: l.drop k := by
        rw [htk]
        exact List.take_prefix 7 (l.drop k)
      exact hA (List.infix_iff_prefix_suffix.mpr ⟨l.drop k, hpre, hsuffix⟩)
    · push_neg at h7
      have htk := congrArg (List.take (l.drop k).length) ht
      rw [List.take_append_of_le_length
          (show (l.drop k).length ≤ ((" cross ").toList).length from by
            rw [show ((" cross ").toList).length = 7 from by decide]
            omega),
        List.take_left] at htk
      have hdk := congrArg (List.drop (l.drop k).length) ht
      rw [List.drop_append_of_le_length
          (show (l.drop k).length ≤ ((" cross ").toList).length from by
            rw [show ((" cross ").toList).length = 7 from by decide]
            omega),
        List.drop_left] at hdk
      have hE := congrArg (List.take (7 - (l.drop k).length)) hdk
      rw [List.take_append_of_le_length
          (show 7 - (l.drop k).length ≤ (((" cross ").toList).drop (l.drop k).length).length from by
            rw [List.length_drop, List.length_drop,
              show ((" cross ").toList).length = 7 from by decide]),
        List.take_of_length_le
          (show (((" cross ").toList).drop (l.drop k).length).length ≤ 7 - (l.drop k).length from by
            rw [List.length_drop, List.length_drop,
              show ((" cross ").toList).length = 7 from by decide]),
        List.take_append_of_le_length
          (show 7 - (l.drop k).length ≤ ((" cross ").toList).length from by
            rw [show ((" cross ").toList).length = 7 from by decide]
            omega)] at hE
      by_cases h6 : (l.drop k).length = 6
      · have hs6 : l.drop k = (" cross").toList := by
          rw [← htk, h6]
          decide
        exact hB (hs6 ▸ hsuffix)
      · have hcase : (l.drop k).length = 1 ∨ (l.drop k).length = 2 ∨
            (l.drop k).length = 3 ∨ (l.drop k).length = 4 ∨ (l.drop k).length = 5 := by
          omega
        rcases hcase with h|h|h|h|h <;> rw [h] at hE <;> exact absurd hE (by decide)

theorem jsSplit_encode_line {l : JStr}
    (hA : ¬ (" cross ").toList <:+: l) (hB : ¬ (" cross").toList <:+ l)
    (r : JStr)
    (hr : ∀ k, k < r.length → ((" cross ").toList).isPrefixOf (r.drop k) = false) :
    jsSplit (" cross ").toList (l ++ (" cross ").toList ++ r) = [l, r] := by
  unfold jsSplit
  rw [jsSplitA_append_sep (" cross ").toList (by decide) l r
    (cross_no_early_occurrence hA hB),
    jsSplitA_no_occurrence (" cross ").toList (by decide) r hr]

theorem mem_moveFacts_props {cfg : PuzzleConfig} {m : List Int}
    (h : m ∈ moveFacts cfg) :
    m.length = cfg.species.length ∧ (∀ x ∈ m, 0 ≤ x) ∧ 1 ≤ m.sum := by
  rw [moveFacts, generateAllowedMoves_eq_filter_tuples] at h
  obtain ⟨hmem, hcond⟩ := List.mem_filter.mp h
  obtain ⟨hlen, hall⟩ := mem_tuples.mp hmem
  rw [Bool.and_eq_true] at hcond
  exact ⟨hlen, fun x hx => (hall x hx).1, of_decide_eq_true hcond.1⟩

theorem mem_of_getElem?_eq {α : Type} {l : List α} {i : Nat} {a : α}
    (h : l[i]? = some a) : a ∈ l := by
  have hi : i < l.length := getElem?_lt_length h
  rw [List.getElem?_eq_getElem hi] at h
  injection h with h
  exact h ▸ List.getElem_mem hi

theorem moveSegments_nil_sum : ∀ (m : List Int) (species : List Species),
    m.length = species.length → moveSegments species m = [] → m.sum ≤ 0 := by
  intro m
  induction m with
  | nil =>
    intro species _ _
    simp
  | cons a m2 ih =>
    intro species hlen hnil
    cases species with
    | nil => simp at hlen
    | cons sp sps =>
      rw [moveSegments, List.zip_cons_cons, List.filterMap_cons] at hnil
      by_cases hpa : 0 < a
      · rw [if_pos hpa] at hnil
        cases hnil
      · rw [if_neg hpa] at hnil
        have h2 := ih sps (by simpa using hlen) hnil
        rw [List.sum_cons]
        omega

theorem moveSegments_ne_nil {species : List Species} {m : List Int}
    (hlen : m.length = species.length) (hsum : 1 ≤ m.sum) :
    moveSegments species m ≠ [] := by
  intro hnil
  have := moveSegments_nil_sum m species hlen hnil
  omega

theorem seg_trim {ds nm : JStr} (hds : ds ≠ [])
    (hdig : ∀ c ∈ ds, c.isDigit = true)
    (hnm : nm ≠ []) (hch : ∀ c ∈ nm, isNameChar c = true) :
    jsTrim (ds ++ ' ' :: nm) = ds ++ ' ' :: nm := by
  refine jsTrim_eq_self_of_ends ?_ ?_
  · intro a ha
    cases ds with
    | nil => exact absurd rfl hds
    | cons d ds2 =>
      rw [List.cons_append, List.head?_cons] at ha
      injection ha with ha
      exact ha ▸ isDigit_not_whitespace (hdig d (List.mem_cons_self _ _))
  · intro a ha
    cases nm with
    | nil => exact absurd rfl hnm
    | cons c nm2 =>
      rw [List.getLast?_append_of_ne_nil ds (by simp),
        List.getLast?_cons_cons] at ha
      have hmem : a ∈ c :: nm2 := by
        cases hg : (c :: nm2).getLast? with
        | none =>
          rw [hg] at ha
          cases ha
        | some b =>
          rw [hg] at ha
          injection ha with ha
          subst ha
          exact List.mem_of_mem_getLast? hg
      exact isNameChar_not_whitespace (hch a hmem)

theorem segGood_of_mem_moveSegments {cfg : PuzzleConfig} {m : List Int} {s : JStr}
    (hg : goodConfig cfg) (hs : s ∈ moveSegments cfg.species m) : SegGood s := by
  rw [moveSegments, List.mem_filterMap] at hs
  obtain ⟨p, hp, hps⟩ := hs
  by_cases hpos : 0 < p.1
  · rw [if_pos hpos] at hps
    injection hps with hps
    obtain ⟨hdv, hdig, hne⟩ := natToDec_spec p.1.toNat (by omega)
    have hsp : p.2 ∈ cfg.species := (List.of_mem_zip hp).2
    have hnm : p.2.name ∈ speciesNames cfg := List.mem_map_of_mem _ hsp
    obtain ⟨hnd, hgood, hcross⟩ := hg
    exact ⟨natToDec p.1.toNat, p.2.name, hps.symm, hne, hdig,
      hgood p.2.name hnm, hcross p.2.name hnm⟩
  · rw [if_neg hpos] at hps
    cases hps

theorem segGood_comma_free {s : JStr} (h : SegGood s) : ∀ a ∈ s, a ≠ ',' := by
  obtain ⟨ds, nm, rfl, -, hdig, ⟨-, hchars⟩, -⟩ := h
  intro a ha
  rcases List.mem_append.mp ha with h1 | h1
  · exact isDigit_ne_comma (hdig a h1)
  · rcases List.mem_cons.mp h1 with rfl | h2
    · decide
    · exact isNameChar_ne_comma (hchars a h2)

theorem encode_forall2 : ∀ (pl : List (Int × Species)),
    (∀ p ∈ pl, goodName p.2.name) →
    List.Forall₂ (fun seg q => segMatchesWS (jsTrim seg) q.1 q.2)
      (pl.filterMap fun p =>
        if 0 < p.1 then some (natToDec p.1.toNat ++ ' ' :: p.2.name) else none)
      (pl.filterMap fun p =>
        if 0 < p.1 then some (p.1.toNat, p.2.name) else none) := by
  intro pl
  induction pl with
  | nil =>
    intro _
    exact List.Forall₂.nil
  | cons p pl2 ih =>
    intro hgood
    rw [List.filterMap_cons, List.filterMap_cons]
    by_cases hpos : 0 < p.1
    · rw [if_pos hpos, if_pos hpos]
      refine List.Forall₂.cons ?_ (ih fun q hq => hgood q (List.mem_cons_of_mem _ hq))
      obtain ⟨hdv, hdig, hne⟩ := natToDec_spec p.1.toNat (by omega)
      obtain ⟨hnmne, hnmch⟩ := hgood p (List.mem_cons_self _ _)
      rw [seg_trim hne hdig hnmne hnmch]
      exact ⟨natToDec p.1.toNat, [' '], by simp, hne, hdig, by simp,
        by decide, hnmne, fun c hc => isNameChar_not_whitespace (hnmch c hc),
        hdv.symm⟩
    · rw [if_neg hpos, if_neg hpos]
      exact ih fun q hq => hgood q (List.mem_cons_of_mem _ hq)

theorem forall2_space_left {segs : List JStr} {pairs : List (Nat × JStr)}
    (h : List.Forall₂ (fun seg p => segMatchesWS (jsTrim seg) p.1 p.2) segs pairs) :
    List.Forall₂ (fun seg p => segMatchesWS (jsTrim seg) p.1 p.2)
      (segs.map (fun s => ' ' :: s)) pairs := by
  rw [List.forall₂_map_left_iff]
  refine h.imp ?_
  intro a b hab
  rwa [jsTrim_cons_space]

theorem segSum_eq_zero_of_not_mem {pairs : List (Nat × JStr)} {nm : JStr}
    (h : ∀ p ∈ pairs, p.2 ≠ nm) : segSum pairs nm = 0 := by
  unfold segSum
  rw [List.filter_eq_nil_iff.mpr (fun p hp => by simpa using h p hp)]
  rfl

theorem segSum_encode : ∀ (m : List Int) (species : List Species),
    m.length = species.length → (∀ x ∈ m, 0 ≤ x) →
    (species.map fun s => s.name).Nodup →
    ∀ (i : Nat) (nmi : JStr), (species.map fun s => s.name)[i]? = some nmi →
      m[i]? = some (segSum ((m.zip species).filterMap fun p =>
        if 0 < p.1 then some (p.1.toNat, p.2.name) else none) nmi) := by
  intro m
  induction m with
  | nil =>
    intro species hlen _ _ i nmi hi
    cases species with
    | nil => simp at hi
    | cons _ _ => simp at hlen
  | cons a m2 ih =>
    intro species hlen hpos hnd i nmi hi
    cases species with
    | nil => simp at hlen
    | cons sp sps =>
      rw [List.map_cons] at hi hnd
      rw [List.zip_cons_cons, List.filterMap_cons]
      have hlen2 : m2.length = sps.length := by simpa using hlen
      have hpos2 : ∀ x ∈ m2, 0 ≤ x := fun x hx => hpos x (List.mem_cons_of_mem _ hx)
      have hnd2 : (sps.map fun s => s.name).Nodup := hnd.of_cons
      have hnotin : sp.name ∉ sps.map fun s => s.name := (List.nodup_cons.mp hnd).1
      cases i with
      | zero =>
        rw [List.getElem?_cons_zero] at hi
        injection hi with hi
        rw [List.getElem?_cons_zero]
        have hz : segSum ((m2.zip sps).filterMap fun p =>
            if 0 < p.1 then some (p.1.toNat, p.2.name) else none) nmi = 0 := by
          refine segSum_eq_zero_of_not_mem ?_
          intro p hp
          rw [List.mem_filterMap] at hp
          obtain ⟨q, hq, hqp⟩ := hp
          by_cases h0 : 0 < q.1
          · rw [if_pos h0] at hqp
            injection hqp with hqp
            intro hcc
            apply hnotin
            rw [hi, ← hcc, ← hqp]
            exact List.mem_map_of_mem _ (List.of_mem_zip hq).2
          · rw [if_neg h0] at hqp
            cases hqp
        have ha0 : 0 ≤ a := hpos a (List.mem_cons_self _ _)
        by_cases hpa : 0 < a
        · rw [if_pos hpa, segSum_cons, if_pos hi, hz, add_zero]
          congr 1
          omega
        · rw [if_neg hpa, hz]
          congr 1
          omega
      | succ i2 =>
        rw [List.getElem?_cons_succ] at hi
        rw [List.getElem?_cons_succ]
        have hrec := ih sps hlen2 hpos2 hnd2 i2 nmi hi
        by_cases hpa : 0 < a
        · rw [if_pos hpa, segSum_cons]
          have hne : sp.name ≠ nmi := by
            intro hcc
            apply hnotin
            rw [hcc]
            exact mem_of_getElem?_eq hi
          rw [if_neg hne, zero_add]
          exact hrec
        · rw [if_neg hpa]
          exact hrec

theorem moveToSentence_shape (species : List Species) (m : List Int) (b a : PState) :
    moveToSentence species ⟨m, b, a⟩ =
      joinWith (", ").toList (moveSegments species m) ++ (" cross ").toList ++
        (sideToText b.side ++ (" -> ").toList ++ sideToText a.side) := by
  unfold moveToSentence
  simp [List.append_assoc]

theorem parseSolutionLine_split_ltr {names : List JStr} {line l : JStr}
    (hsplit : jsSplit (" cross ").toList line = [l, ("left -> right").toList]) :
    parseSolutionLine names line = parseAmounts names line Direction.leftToRight := by
  unfold parseSolutionLine
  rw [hsplit, List.getElem?_cons_succ, List.getElem?_cons_zero]
  show (if ("left -> right").toList = [] then
      Except.error (ParseError.missingCross line)
    else if jsTrim (("left -> right").toList) = ("left -> right").toList then
      parseAmounts names line Direction.leftToRight
    else if jsTrim (("left -> right").toList) = ("right -> left").toList then
      parseAmounts names line Direction.rightToLeft
    else Except.error (ParseError.invalidDirection line)) =
    parseAmounts names line Direction.leftToRight
  rw [if_neg (by decide), if_pos (by decide)]

theorem parseSolutionLine_split_rtl {names : List JStr} {line l : JStr}
    (hsplit : jsSplit (" cross ").toList line = [l, ("right -> left").toList]) :
    parseSolutionLine names line = parseAmounts names line Direction.rightToLeft := by
  unfold parseSolutionLine
  rw [hsplit, List.getElem?_cons_succ, List.getElem?_cons_zero]
  show (if ("right -> left").toList = [] then
      Except.error (ParseError.missingCross line)
    else if jsTrim (("right -> left").toList) = ("left -> right").toList then
      parseAmounts names line Direction.leftToRight
    else if jsTrim (("right -> left").toList) = ("right -> left").toList then
      parseAmounts names line Direction.rightToLeft
    else Except.error (ParseError.invalidDirection line)) =
    parseAmounts names line Direction.rightToLeft
  rw [if_neg (by decide), if_neg (by decide), if_pos (by decide)]

theorem parseAmounts_encode {cfg : PuzzleConfig} (hg : goodConfig cfg)
    {m : List Int} {x : JStr} {segs : List JStr} {line : JStr} (d : Direction)
    (hm : m ∈ moveFacts cfg)
    (hms : moveSegments cfg.species m = x :: segs)
    (hhead : (jsSplit (" cross ").toList line).headD [] =
      joinWith (", ").toList (x :: segs)) :
    parseAmounts (speciesNames cfg) line d = .ok ⟨m, d⟩ := by
  obtain ⟨hlen, hge, hsum⟩ := mem_moveFacts_props hm
  have hsg : ∀ s ∈ x :: segs, SegGood s := by
    rw [← hms]
    exact fun s hs2 => segGood_of_mem_moveSegments hg hs2
  have hcsplit : jsSplit [','] (joinWith (", ").toList (x :: segs)) =
      x :: segs.map (fun s => ' ' :: s) :=
    jsSplit_comma_join segs x (segGood_comma_free (hsg x (List.mem_cons_self _ _)))
      (fun s hs2 => segGood_comma_free (hsg s (List.mem_cons_of_mem _ hs2)))
  have hnd : (speciesNames cfg).Nodup := hg.1
  have hf2 : List.Forall₂ (fun seg p => segMatchesWS (jsTrim seg) p.1 p.2)
      (x :: segs.map (fun s => ' ' :: s))
      ((m.zip cfg.species).filterMap fun p =>
        if 0 < p.1 then some (p.1.toNat, p.2.name) else none) := by
    have h0 : List.Forall₂ (fun seg q => segMatchesWS (jsTrim seg) q.1 q.2)
        (moveSegments cfg.species m)
        ((m.zip cfg.species).filterMap fun p =>
          if 0 < p.1 then some (p.1.toNat, p.2.name) else none) :=
      encode_forall2 (m.zip cfg.species)
        (fun p hp => hg.2.1 p.2.name
          (List.mem_map_of_mem _ (List.of_mem_zip hp).2))
    rw [hms] at h0
    obtain ⟨p0, prest, hp0, hrest, hpr⟩ := List.forall₂_cons_left_iff.mp h0
    rw [hpr]
    exact List.Forall₂.cons hp0 (forall2_space_left hrest)
  have hmemn : ∀ p ∈ ((m.zip cfg.species).filterMap fun p =>
      if 0 < p.1 then some (p.1.toNat, p.2.name) else none),
      p.2 ∈ speciesNames cfg := by
    intro p hp
    rw [List.mem_filterMap] at hp
    obtain ⟨q, hq, hqp⟩ := hp
    by_cases h0 : 0 < q.1
    · rw [if_pos h0] at hqp
      injection hqp with hqp
      rw [← hqp]
      exact List.mem_map_of_mem _ (List.of_mem_zip hq).2
    · rw [if_neg h0] at hqp
      cases hqp
  have hps : parseSegments (speciesNames cfg) line (x :: segs.map (fun s => ' ' :: s))
      (List.replicate (speciesNames cfg).length 0) = .ok m :=
    (parseSegments_spec hnd line _ m).mpr
      ⟨_, hf2, hmemn,
        by
          show m.length = (cfg.species.map fun s => s.name).length
          rw [List.length_map, hlen],
        fun i nmi hi => segSum_encode m cfg.species hlen hge hnd i nmi hi⟩
  unfold parseAmounts
  rw [hhead, hcsplit, hps]

theorem parseSolutionLine_encode {cfg : PuzzleConfig} (hg : goodConfig cfg)
    {st : SolStep} (ht : transition_with_move cfg st.before st.move st.after) :
    parseSolutionLine (speciesNames cfg) (moveToSentence cfg.species st) =
      .ok (stepOfSolStep st) := by
  obtain ⟨m, b, a⟩ := st
  have ht2 : transition_with_move cfg b m a := ht
  cases ht2 with
  | subtract hm happ hsafe =>
    rename_i counts newCounts
    obtain ⟨hlen, -, hsum⟩ := mem_moveFacts_props hm
    cases hms : moveSegments cfg.species m with
    | nil => exact absurd hms (moveSegments_ne_nil hlen hsum)
    | cons x segs =>
      have hsg : ∀ s ∈ x :: segs, SegGood s := by
        rw [← hms]
        exact fun s hs2 => segGood_of_mem_moveSegments hg hs2
      have hx := hsg x (List.mem_cons_self _ _)
      have hsegs2 : ∀ s ∈ segs, SegGood s :=
        fun s hs2 => hsg s (List.mem_cons_of_mem _ hs2)
      have hline : moveToSentence cfg.species
          ⟨m, ⟨counts, Side.start⟩, ⟨newCounts, Side.target⟩⟩ =
          joinWith (", ").toList (x :: segs) ++ (" cross ").toList ++
            ("left -> right").toList := by
        rw [moveToSentence_shape, hms]
        rfl
      rw [hline,
        show stepOfSolStep ⟨m, ⟨counts, Side.start⟩, ⟨newCounts, Side.target⟩⟩ =
          (⟨m, Direction.leftToRight⟩ : Step) from rfl]
      have hsplit := jsSplit_encode_line
        (not_cross_infix_join segs x hx hsegs2)
        (not_cross_suffix_join segs x hx hsegs2)
        (("left -> right").toList) (by decide)
      rw [parseSolutionLine_split_ltr hsplit]
      exact parseAmounts_encode hg Direction.leftToRight hm hms
        (by rw [hsplit]; rfl)
  | add hm happ hsafe =>
    rename_i counts newCounts
    obtain ⟨hlen, -, hsum⟩ := mem_moveFacts_props hm
    cases hms : moveSegments cfg.species m with
    | nil => exact absurd hms (moveSegments_ne_nil hlen hsum)
    | cons x segs =>
      have hsg : ∀ s ∈ x :: segs, SegGood s := by
        rw [← hms]
        exact fun s hs2 => segGood_of_mem_moveSegments hg hs2
      have hx := hsg x (List.mem_cons_self _ _)
      have hsegs2 : ∀ s ∈ segs, SegGood s :=
        fun s hs2 => hsg s (List.mem_cons_of_mem _ hs2)
      have hline : moveToSentence cfg.species
          ⟨m, ⟨counts, Side.target⟩, ⟨newCounts, Side.start⟩⟩ =
          joinWith (", ").toList (x :: segs) ++ (" cross ").toList ++
            ("right -> left").toList := by
        rw [moveToSentence_shape, hms]
        rfl
      rw [hline,
        show stepOfSolStep ⟨m, ⟨counts, Side.target⟩, ⟨newCounts, Side.start⟩⟩ =
          (⟨m, Direction.rightToLeft⟩ : Step) from rfl]
      have hsplit := jsSplit_encode_line
        (not_cross_infix_join segs x hx hsegs2)
        (not_cross_suffix_join segs x hx hsegs2)
        (("right -> left").toList) (by decide)
      rw [parseSolutionLine_split_rtl hsplit]
      exact parseAmounts_encode hg Direction.rightToLeft hm hms
        (by rw [hsplit]; rfl)

theorem check_solution_of_path (cfg : PuzzleConfig) :
    ∀ {s : PState} {visited : List PState} {sol : List SolStep},
      path cfg s visited sol →
      check_solution cfg (sol.map stepOfSolStep) s = true := by
  intro s visited sol h
  induction h with
  | done heq =>
    rw [List.map_nil, check_solution, heq]
    simp
  | step h1 h2 h3 ih =>
    rename_i s2 next visited2 m rest
    rw [List.map_cons]
    cases h1 with
    | subtract hm happ hsafe =>
      rename_i counts newCounts
      rw [show stepOfSolStep ⟨m, ⟨counts, Side.start⟩, ⟨newCounts, Side.target⟩⟩ =
        (⟨m, Direction.leftToRight⟩ : Step) from rfl]
      show (decide (m ∈ moveFacts cfg) &&
        (match apply_move_subtract counts m with
         | some newCounts2 =>
             safe cfg ⟨newCounts2, Side.target⟩ &&
             check_solution cfg (rest.map stepOfSolStep) ⟨newCounts2, Side.target⟩
         | none => false)) = true
      rw [happ]
      show (decide (m ∈ moveFacts cfg) &&
        (safe cfg ⟨newCounts, Side.target⟩ &&
         check_solution cfg (rest.map stepOfSolStep) ⟨newCounts, Side.target⟩)) = true
      rw [hsafe, ih, decide_eq_true hm]
      rfl
    | add hm happ hsafe =>
      rename_i counts newCounts
      rw [show stepOfSolStep ⟨m, ⟨counts, Side.target⟩, ⟨newCounts, Side.start⟩⟩ =
        (⟨m, Direction.rightToLeft⟩ : Step) from rfl]
      show (decide (m ∈ moveFacts cfg) &&
        (match apply_move_add counts (init_counts cfg) m with
         | some newCounts2 =>
             safe cfg ⟨newCounts2, Side.start⟩ &&
             check_solution cfg (rest.map stepOfSolStep) ⟨newCounts2, Side.start⟩
         | none => false)) = true
      rw [happ]
      show (decide (m ∈ moveFacts cfg) &&
        (safe cfg ⟨newCounts, Side.start⟩ &&
         check_solution cfg (rest.map stepOfSolStep) ⟨newCounts, Side.start⟩)) = true
      rw [hsafe, ih, decide_eq_true hm]
      rfl

theorem parseSolutionLines_encode {cfg : PuzzleConfig} (hg : goodConfig cfg) :
    ∀ {s : PState} {visited : List PState} {sol : List SolStep},
      path cfg s visited sol →
      parseSolutionLines cfg (solutionToHumanReadableList cfg.species sol) =
        .ok (sol.map stepOfSolStep) := by
  intro s visited sol h
  induction h with
  | done _ => rfl
  | step h1 h2 h3 ih =>
    rename_i s2 next visited2 m rest
    have hline : parseSolutionLine (speciesNames cfg)
        (moveToSentence cfg.species ⟨m, s2, next⟩) =
        .ok (stepOfSolStep ⟨m, s2, next⟩) :=
      parseSolutionLine_encode hg h1
    show (match parseSolutionLine (speciesNames cfg)
        (moveToSentence cfg.species ⟨m, s2, next⟩) with
      | Except.error e => (Except.error e : Except ParseError (List Step))
      | Except.ok st =>
          match parseSolutionLines cfg
              (solutionToHumanReadableList cfg.species rest) with
          | Except.error e => Except.error e
          | Except.ok sts => Except.ok (st :: sts)) =
      Except.ok (stepOfSolStep ⟨m, s2, next⟩ :: rest.map stepOfSolStep)
    rw [hline, ih]

/-! ## Claim C2 -/

/-- C2 counterexample: a config whose single species is named `cross` (a
name the generator can produce).  `solveProblem` finds the one-step
solution, but its `moveToSentence` encoding `"1 cross cross left -> right"`
splits at the first `" cross "` occurrence, leaving the direction part
`"cross left -> right"`, so `checkUserSolution` throws an
invalid-direction error instead of returning `true`. -/
theorem cross_roundtrip_counterexample :
    solve_solution crossConfig crossSolution ∧
    checkUserSolution crossConfig
        (solutionToHumanReadableList crossConfig.species crossSolution) =
      .error (ParseError.invalidDirection
        (("1 cross cross left -> right").toList)) := by
  constructor
  · exact path.step
      (transition_with_move.subtract (by decide) (by decide) (by decide))
      (by decide) (path.done rfl)
  · rfl

/-- C2 (amended): for every config whose species names are well-formed
(non-empty, alphanumeric/underscore), distinct, and differ from the
reserved word `cross`, and every solution returned by solve
(`solve_solution`), encoding the solution into step lines
(`moveToSentence` per step) and passing those lines to verify
(`checkUserSolution`) with the same config yields `true`. -/
theorem solve_verify_roundtrip (cfg : PuzzleConfig) (sol : List SolStep)
    (hg : goodConfig cfg) (hsol : solve_solution cfg sol) :
    checkUserSolution cfg (solutionToHumanReadableList cfg.species sol) =
      .ok true := by
  unfold checkUserSolution
  rw [parseSolutionLines_encode hg hsol]
  show Except.ok (check_solution cfg (sol.map stepOfSolStep) (initial_state cfg)) =
    Except.ok true
  rw [check_solution_of_path cfg hsol]

/-- C2 witness: the cats-and-dogs config is well-formed, its one-step
solution is a `solve_solution`, and the round-trip through encoding and
`checkUserSolution` yields `true`. -/
theorem solve_verify_roundtrip_witness :
    goodConfig catsDogsConfig ∧
    solve_solution catsDogsConfig catsDogsSolution ∧
    checkUserSolution catsDogsConfig
        (solutionToHumanReadableList catsDogsConfig.species catsDogsSolution) =
      .ok true := by
  have hp : solve_solution catsDogsConfig catsDogsSolution :=
    path.step
      (transition_with_move.subtract (by decide) (by decide) (by decide))
      (by decide) (path.done rfl)
  have hgc : goodConfig catsDogsConfig := by
    unfold goodConfig goodName
    decide
  exact ⟨hgc, hp,
    solve_verify_roundtrip catsDogsConfig catsDogsSolution hgc hp⟩

/-- C6 witness: the species-name table of the cats-and-dogs config has no
duplicates, so the decode characterisation applies to the concrete line
`"1 cats, 1 dogs cross left -> right"` and the step `([1, 1], left-to-right)`. -/
theorem parseSolutionLine_spec_witness :
    (speciesNames catsDogsConfig).Nodup ∧
    ((parseSolutionLine (speciesNames catsDogsConfig)
        (("1 cats, 1 dogs cross left -> right").toList)).toOption =
        some ⟨[1, 1], Direction.leftToRight⟩ ↔
      specDecodesTo segMatchesWS (speciesNames catsDogsConfig)
        (("1 cats, 1 dogs cross left -> right").toList)
        ⟨[1, 1], Direction.leftToRight⟩) :=
  ⟨by decide, parseSolutionLine_spec (speciesNames catsDogsConfig) (by decide)
    (("1 cats, 1 dogs cross left -> right").toList)
    ⟨[1, 1], Direction.leftToRight⟩⟩
